import Mathlib

/-!
# latex-report-server: secure extraction and two-pass compilation

A shallow embedding of `main.go` (the whole repository is that one file) and the
properties of its natural-language specification.

* Go strings are byte sequences.  They are modelled as lists, one element per byte; the
  functions below only ever compare elements with the ASCII bytes `/`, `.` and `:`, so
  every statement quantified over all lists holds for every byte string.
* The standard-library functions the program calls (`strings.HasPrefix`,
  `filepath.Clean`, `filepath.Join`, ...) are modelled for the Unix build
  (`filepath.Separator` is `/`, there are no volume names).
* Calls that leave the program (the filesystem, the archive reader, the external
  compiler) take their answers from an explicit environment value and are recorded
  in a trace of effects, in program order.
-/

namespace LatexReportServer

/-! ## Strings -/

/-- A Go `string`: a sequence of bytes. -/
abbrev GoString := List Char

/-- `strings.HasPrefix(s, p)`. -/
def HasPrefix (s p : GoString) : Bool := p.isPrefixOf s

/-- `strings.HasSuffix(s, suffix)`. -/
def HasSuffix (s suffix : GoString) : Bool := suffix.isSuffixOf s

/-- `strings.Contains(s, substr)`: `substr` starts at some position of `s`. -/
def Contains : GoString → GoString → Bool
  | [], substr => HasPrefix [] substr
  | c :: cs, substr => HasPrefix (c :: cs) substr || Contains cs substr

/-- `strings.TrimSuffix(s, suffix)`: `s` without the trailing `suffix`, or `s` itself
when it does not end in `suffix`. -/
def TrimSuffix (s suffix : GoString) : GoString :=
  if HasSuffix s suffix then s.take (s.length - suffix.length) else s

/-! ## Paths (`path/filepath`, Unix) -/

/-- `filepath.Separator`. -/
def Separator : Char := '/'

/-- The path elements of a path: the pieces between separators (empty pieces kept). -/
def splitSep : GoString → List GoString
  | [] => [[]]
  | c :: cs =>
    if c = Separator then [] :: splitSep cs
    else
      match splitSep cs with
      | [] => [[c]]
      | e :: es => (c :: e) :: es

/-- Path elements written with one separator between neighbours. -/
def joinElems : List GoString → GoString
  | [] => []
  | e :: es =>
    match es with
    | [] => e
    | _ :: _ => e ++ Separator :: joinElems es

/-- One iteration of the element loop of `filepath.Clean`.  `stack` holds the elements
written so far, last written first.  An empty element and a `.` element are dropped; a
`..` element removes the last written element when that is a real name, is appended when
the path is not rooted and there is nothing to remove, and is dropped at the root; any
other element is appended. -/
def cleanStep (rooted : Bool) (stack : List GoString) (e : GoString) : List GoString :=
  if e = [] ∨ e = ['.'] then stack
  else if e = ['.', '.'] then
    match stack with
    | [] => if rooted then [] else [e]
    | top :: below => if !rooted && top = ['.', '.'] then e :: stack else below
  else e :: stack

/-- `filepath.Clean(path)`: the shortest path equivalent to `path` by lexical
processing.  The empty path becomes `.`; a rooted path keeps its leading separator. -/
def Clean (path : GoString) : GoString :=
  if path = [] then ['.']
  else
    let rooted := HasPrefix path [Separator]
    let elems := ((splitSep path).foldl (cleanStep rooted) []).reverse
    if rooted then Separator :: joinElems elems
    else if elems = [] then ['.']
    else joinElems elems

/-- `filepath.Join(a, b)`: the non-empty arguments joined by a separator and cleaned;
the empty string when both are empty. -/
def Join (a b : GoString) : GoString :=
  if a ≠ [] then Clean (a ++ Separator :: b)
  else if b ≠ [] then Clean b
  else []

/-- The part of a reversed path up to and including its last separator, still reversed;
used by `Dir`: scanning from the end, bytes are dropped until a separator is met. -/
def dropLastElemRev : GoString → GoString
  | [] => []
  | c :: cs => if c = Separator then c :: cs else dropLastElemRev cs

/-- `filepath.Dir(path)`: everything up to the last separator, cleaned. -/
def Dir (path : GoString) : GoString :=
  Clean (dropLastElemRev path.reverse).reverse

/-- The scan of `filepath.Ext` over the reversed path: `acc` is what has been passed. -/
def extScan : GoString → GoString → GoString
  | [], _ => []
  | c :: cs, acc =>
    if c = Separator then []
    else if c = '.' then c :: acc
    else extScan cs (c :: acc)

/-- `filepath.Ext(path)`: the suffix beginning at the final dot in the final element of
`path`; empty if there is no dot. -/
def Ext (path : GoString) : GoString := extScan path.reverse []

/-- The reversed path without leading separators (trailing ones of the path). -/
def stripSepRev : GoString → GoString
  | [] => []
  | c :: cs => if c = Separator then stripSepRev cs else c :: cs

/-- `filepath.Base(path)`: the last element of `path`, trailing separators removed
first; `.` for the empty path and a single separator for a path of separators only. -/
def Base (path : GoString) : GoString :=
  if path = [] then ['.']
  else
    let stripped := stripSepRev path.reverse
    let last := (stripped.takeWhile (fun c => c != Separator)).reverse
    if last = [] then [Separator] else last

/-! ## Machine integers -/

/-- The value of a Go `int64` expression whose exact result is `x`: two's complement
wrap-around to the range from `-2^63` up to `2^63 - 1`. -/
def wrap64 (x : Int) : Int := (x + 2 ^ 63) % 2 ^ 64 - 2 ^ 63

/-! ## Errors, effects and runs -/

/-- An error value handed back by the operating system or a library. -/
abbrev OsError := GoString

/-- The error values `unzipSecure` can return. -/
inductive UnzipError
  /-- An error passed on unchanged: from `zip.OpenReader`, `os.MkdirAll` or `zf.Open`. -/
  | os (e : OsError)
  /-- The value `errors.New("uncompressed size too large")`. -/
  | tooLarge
  /-- The value `fmt.Errorf("suspicious path: %s", zf.Name)`. -/
  | suspiciousPath (name : GoString)
  /-- The value `fmt.Errorf("zip slip detected: %s", zf.Name)`. -/
  | zipSlip (name : GoString)
  deriving DecidableEq

/-- The text of an error value (`err.Error()`). -/
def UnzipError.Error : UnzipError → GoString
  | .os e => e
  | .tooLarge => "uncompressed size too large".toList
  | .suspiciousPath name => "suspicious path: ".toList ++ name
  | .zipSlip name => "zip slip detected: ".toList ++ name

/-- A call that acts on the world outside the program. -/
inductive Effect
  /-- The directory `os.MkdirTemp` created for the request. -/
  | mkdirTemp (dir : GoString)
  /-- The call `os.Create(dstPath)` of `saveUploaded`. -/
  | create (path : GoString)
  /-- The call `os.MkdirAll(targetPath, 0o755)` for a directory entry. -/
  | mkdirAll (path : GoString)
  /-- The call `os.MkdirAll(filepath.Dir(targetPath), 0o755)` for a regular entry. -/
  | mkdirParent (path : GoString)
  /-- The call `os.OpenFile(targetPath, O_CREATE|O_WRONLY|O_TRUNC, zf.Mode())`. -/
  | openFile (path : GoString) (mode : Nat)
  /-- The call `io.Copy(out, rc)` into the file opened at `path`. -/
  | copy (path : GoString)
  /-- The call `runPdflatex(ctx, workDir, texPath)`: one run of the external compiler. -/
  | runPdflatex (workDir texPath : GoString)
  /-- The call `os.Open(pdfPath)`. -/
  | openPdf (path : GoString)
  /-- The deferred `os.RemoveAll(tmpDir)`. -/
  | removeAll (dir : GoString)
  /-- The deferred `file.Close()` of the uploaded form file. -/
  | closeUpload
  /-- The deferred `cancel()` of the compilation deadline. -/
  | cancel
  /-- The deferred `f.Close()` of the produced PDF. -/
  | closePdf
  deriving DecidableEq

/-- How a call of `unzipSecure` ends. -/
inductive UnzipOutcome
  /-- The statement `return nil`. -/
  | ok
  /-- The statement `return err` with a non-nil error. -/
  | error (e : UnzipError)
  /-- The statement `panic(err)`. -/
  | panic (e : OsError)
  deriving DecidableEq

/-- A finished call of `unzipSecure`: the effects it had, in order, and how it ended. -/
structure UnzipRun where
  trace : List Effect
  outcome : UnzipOutcome
  deriving DecidableEq

/-! ## The archive -/

/-- What the system answers to the calls made for one archive entry: `none` is success
(a nil error), `some e` the error returned. -/
structure EntryCalls where
  /-- The answer of `os.MkdirAll`. -/
  mkdirAll : Option OsError
  /-- The answer of `zf.Open()`. -/
  zfOpen : Option OsError
  /-- The answer of `os.OpenFile`. -/
  openFile : Option OsError
  /-- The answer of `io.Copy`. -/
  copy : Option OsError
  deriving DecidableEq

/-- Every call for the entry succeeds. -/
def EntryCalls.allOk : EntryCalls := ⟨none, none, none, none⟩

/-- One entry of the archive table (`*zip.File`), with the answers to the calls made
for it. -/
structure ZipFile where
  /-- The field `zf.Name`. -/
  Name : GoString
  /-- The field `zf.UncompressedSize64`, a `uint64`: below `2^64`. -/
  UncompressedSize64 : Nat
  /-- The value of `zf.FileInfo().IsDir()`. -/
  IsDir : Bool
  /-- The value of `zf.Mode()`. -/
  Mode : Nat
  /-- The answers to the system calls made while extracting this entry. -/
  calls : EntryCalls
  deriving DecidableEq

/-! ## `unzipSecure` -/

/-- The containment test of `unzipSecure`, positively: `targetPath` is `dest` itself or
starts with `dest` followed by the separator. -/
def withinDest (dest targetPath : GoString) : Bool :=
  HasPrefix targetPath (dest ++ [Separator]) || targetPath == dest

/-- The anonymous function of `unzipSecure` that writes one regular entry: open the
target file and copy the entry into it; either failure is a `panic(err)`.  The result
is the effects and the panic value, if any. -/
def writeEntry (targetPath : GoString) (zf : ZipFile) : List Effect × Option OsError :=
  match zf.calls.openFile with
  | some err => ([Effect.openFile targetPath zf.Mode], some err)
  | none =>
    match zf.calls.copy with
    | some err => ([Effect.openFile targetPath zf.Mode, Effect.copy targetPath], some err)
    | none => ([Effect.openFile targetPath zf.Mode, Effect.copy targetPath], none)

/-- How one iteration of the loop of `unzipSecure` ends. -/
inductive Step
  /-- The loop goes on to the next entry (the end of the body, or the `continue` after
  a directory entry), with the running total of declared sizes. -/
  | next (total : Int)
  /-- The function is left, by a `return err` or a `panic(err)`. -/
  | leave (outcome : UnzipOutcome)
  deriving DecidableEq

/-- The body of the loop `for _, zf := range r.File` of `unzipSecure`, entered with the
running `total`: the effects of the iteration and how it ends. -/
def unzipEntry (dest : GoString) (sizeLimit total : Int) (zf : ZipFile) :
    List Effect × Step :=
  let total := wrap64 (total + wrap64 zf.UncompressedSize64)
  if total > wrap64 (sizeLimit * 5) then ([], .leave (.error .tooLarge))
  else
    let cleanName := Clean zf.Name
    if HasPrefix cleanName ['.', '.'] || Contains cleanName [':'] then
      ([], .leave (.error (.suspiciousPath zf.Name)))
    else
      let targetPath := Join dest cleanName
      if !HasPrefix targetPath (dest ++ [Separator]) && targetPath != dest then
        ([], .leave (.error (.zipSlip zf.Name)))
      else if zf.IsDir then
        match zf.calls.mkdirAll with
        | some err => ([Effect.mkdirAll targetPath], .leave (.error (.os err)))
        | none => ([Effect.mkdirAll targetPath], .next total)
      else
        match zf.calls.mkdirAll with
        | some err => ([Effect.mkdirParent (Dir targetPath)], .leave (.error (.os err)))
        | none =>
          match zf.calls.zfOpen with
          | some err => ([Effect.mkdirParent (Dir targetPath)], .leave (.error (.os err)))
          | none =>
            match writeEntry targetPath zf with
            | (effects, some err) =>
              (Effect.mkdirParent (Dir targetPath) :: effects, .leave (.panic err))
            | (effects, none) =>
              (Effect.mkdirParent (Dir targetPath) :: effects, .next total)

/-- The loop `for _, zf := range r.File` of `unzipSecure`, started with the running
`total` of declared sizes; falling out of the loop is `return nil`. -/
def unzipLoop (dest : GoString) (sizeLimit : Int) : Int → List ZipFile → UnzipRun
  | _, [] => ⟨[], .ok⟩
  | total, zf :: rest =>
    match unzipEntry dest sizeLimit total zf with
    | (effects, .leave outcome) => ⟨effects, outcome⟩
    | (effects, .next total) =>
      let r := unzipLoop dest sizeLimit total rest
      ⟨effects ++ r.trace, r.outcome⟩

/-- `unzipSecure(zipPath, dest, sizeLimit)`.  `archive` is the answer of
`zip.OpenReader(zipPath)`: an error, or the entry table `r.File`. -/
def unzipSecure (archive : Except OsError (List ZipFile)) (dest : GoString)
    (sizeLimit : Int) : UnzipRun :=
  match archive with
  | .error err => ⟨[], .error (.os err)⟩
  | .ok files => unzipLoop dest sizeLimit 0 files

/-- `tail(s, max)`: the last `max` bytes of `s`, or `s` when it is no longer than that.
The slice expression `s[len(s)-max:]` panics when its bound is out of range, which is
the result `none`. -/
def tail (s : GoString) (max : Int) : Option GoString :=
  if (s.length : Int) ≤ max then some s
  else if (s.length : Int) - max ≤ s.length then some (s.drop ((s.length : Int) - max).toNat)
  else none

/-! ## The request handler -/

/-- The configuration read from the process environment at start-up. -/
structure Config where
  /-- The variable `maxUploadMB`, a Go `int`. -/
  maxUploadMB : Int
  /-- The variable `latexTimeoutSec`. -/
  latexTimeoutSec : Int
  /-- The variable `formFieldName`. -/
  formFieldName : GoString
  /-- The variable `texFilename`: the name of the entry point. -/
  texFilename : GoString

/-- The variable `expectedZipSuffix`. -/
def expectedZipSuffix : GoString := ".zip".toList

/-- What the world outside the handler answers during one request.  For a call that
returns only an error, `none` is the nil error. -/
structure Env where
  /-- The field `r.Method`. -/
  Method : GoString
  /-- The answer of `r.ParseMultipartForm(maxBytes)`. -/
  parseMultipartForm : Option OsError
  /-- The answer of `r.FormFile(formFieldName)`: an error, or `hdr.Filename`. -/
  formFile : Except OsError GoString
  /-- The library function `strings.ToLower`. -/
  ToLower : GoString → GoString
  /-- The quoting done by the verb `%q` of `fmt.Sprintf`. -/
  Quote : GoString → GoString
  /-- The answer of `os.MkdirTemp("", "latex-")`: an error, or the new directory. -/
  mkdirTemp : Except OsError GoString
  /-- The answer of `os.Create(dstPath)` in `saveUploaded`. -/
  create : Option OsError
  /-- The answer of `io.Copy(dst, src)` in `saveUploaded`. -/
  copyUpload : Option OsError
  /-- The answer of `zip.OpenReader(zipPath)`. -/
  archive : Except OsError (List ZipFile)
  /-- The answer of `os.Stat(texPath)`. -/
  statTex : Option OsError
  /-- The external compiler: the combined output and the error of its `n`-th run
  (counted from 0) in `workDir` on `texPath`. -/
  pdflatex : Nat → GoString → GoString → GoString × Option OsError
  /-- The answer of `os.Open(pdfPath)`. -/
  openPdf : Option OsError
  /-- The answer of `f.Stat()`. -/
  statPdf : Option OsError

/-- The type `apiError`: the JSON body of a failure response. -/
structure apiError where
  Error : GoString
  Details : GoString
  deriving DecidableEq

/-- What the handler sends. -/
inductive Response
  /-- The call `writeJSON(w, code, v)`. -/
  | json (code : Nat) (v : apiError)
  /-- The call `http.ServeContent(w, r, pdfName, stat.ModTime(), f)`. -/
  | pdf (pdfName : GoString) (pdfPath : GoString)
  deriving DecidableEq

/-- How a call of `compileHandler` ends. -/
inductive HandlerOutcome
  /-- The handler returns after sending a response. -/
  | responded (r : Response)
  /-- The handler is left by a panic. -/
  | panicked (e : OsError)
  deriving DecidableEq

/-- A finished call of `compileHandler`. -/
structure HandlerRun where
  trace : List Effect
  outcome : HandlerOutcome
  deriving DecidableEq

/-- A `defer` statement: `deferred` runs when the rest of the function, `rest`, is
left, by a return or by a panic. -/
def withDefer (deferred : Effect) (rest : HandlerRun) : HandlerRun :=
  ⟨rest.trace ++ [deferred], rest.outcome⟩

/-- A failure response without details. -/
def failWith (code : Nat) (error : GoString) : HandlerRun :=
  ⟨[], .responded (.json code ⟨error, []⟩)⟩

/-- A failure response with details. -/
def failWithDetails (code : Nat) (error details : GoString) : HandlerRun :=
  ⟨[], .responded (.json code ⟨error, details⟩)⟩

/-- The constants `http.StatusBadRequest`, `http.StatusMethodNotAllowed` and
`http.StatusInternalServerError`. -/
def StatusBadRequest : Nat := 400

@[inherit_doc StatusBadRequest]
def StatusMethodNotAllowed : Nat := 405

@[inherit_doc StatusBadRequest]
def StatusInternalServerError : Nat := 500

/-- `saveUploaded(src, dstPath)`: the effects and the error returned. -/
def saveUploaded (env : Env) (dstPath : GoString) : List Effect × Option OsError :=
  match env.create with
  | some err => ([Effect.create dstPath], some err)
  | none => ([Effect.create dstPath], env.copyUpload)

/-- `runPdflatex(ctx, workDir, texPath)`, as the `n`-th run of the compiler. -/
def runPdflatex (env : Env) (n : Nat) (workDir texPath : GoString) :
    GoString × Option OsError :=
  env.pdflatex n workDir texPath

/-- The artifact name of `compileHandler`:
`strings.TrimSuffix(texFilename, filepath.Ext(texFilename)) + ".pdf"`. -/
def pdfName (texFilename : GoString) : GoString :=
  TrimSuffix texFilename (Ext texFilename) ++ ".pdf".toList

/-- The cap on the compiler output quoted in a failure: `8<<10`. -/
def detailsCap : Int := 8 * 2 ^ 10

/-- The handler from the first compiler run on (after `defer cancel()`). -/
def compileStage (env : Env) (tmpDir texPath name pdfPath : GoString) : HandlerRun :=
  match runPdflatex env 0 tmpDir texPath with
  | (out, some _) =>
    match tail out detailsCap with
    | none => ⟨[Effect.runPdflatex tmpDir texPath], .panicked "slice bounds out of range".toList⟩
    | some details =>
      ⟨[Effect.runPdflatex tmpDir texPath],
        .responded (.json StatusInternalServerError
          ⟨"LaTeX compilation failed".toList, details⟩)⟩
  | (_, none) =>
    match runPdflatex env 1 tmpDir texPath with
    | (out, some _) =>
      match tail out detailsCap with
      | none =>
        ⟨[Effect.runPdflatex tmpDir texPath, Effect.runPdflatex tmpDir texPath],
          .panicked "slice bounds out of range".toList⟩
      | some details =>
        ⟨[Effect.runPdflatex tmpDir texPath, Effect.runPdflatex tmpDir texPath],
          .responded (.json StatusInternalServerError
            ⟨"LaTeX compilation failed (2nd pass)".toList, details⟩)⟩
    | (_, none) =>
      match env.openPdf with
      | some _ =>
        ⟨[Effect.runPdflatex tmpDir texPath, Effect.runPdflatex tmpDir texPath,
            Effect.openPdf pdfPath],
          .responded (.json StatusInternalServerError ⟨"PDF not generated".toList, []⟩)⟩
      | none =>
        withDefer Effect.closePdf
          (match env.statPdf with
          | some _ =>
            ⟨[Effect.runPdflatex tmpDir texPath, Effect.runPdflatex tmpDir texPath,
                Effect.openPdf pdfPath],
              .panicked "nil pointer dereference".toList⟩
          | none =>
            ⟨[Effect.runPdflatex tmpDir texPath, Effect.runPdflatex tmpDir texPath,
                Effect.openPdf pdfPath],
              .responded (.pdf name pdfPath)⟩)

/-- The handler from `zipPath := filepath.Join(tmpDir, filename)` on (after
`defer os.RemoveAll(tmpDir)`). -/
def workspaceStage (cfg : Config) (env : Env) (maxBytes : Int) (filename tmpDir : GoString) :
    HandlerRun :=
  let zipPath := Join tmpDir filename
  match saveUploaded env zipPath with
  | (saved, some err) =>
    ⟨saved, .responded (.json StatusBadRequest ⟨"Failed to save upload".toList, err⟩)⟩
  | (saved, none) =>
    let unzip := unzipSecure env.archive tmpDir maxBytes
    match unzip.outcome with
    | .panic err => ⟨saved ++ unzip.trace, .panicked err⟩
    | .error err =>
      ⟨saved ++ unzip.trace,
        .responded (.json StatusBadRequest ⟨"Invalid ZIP file".toList, err.Error⟩)⟩
    | .ok =>
      let texPath := Join tmpDir cfg.texFilename
      match env.statTex with
      | some _ =>
        ⟨saved ++ unzip.trace,
          .responded (.json StatusBadRequest
            ⟨"No ".toList ++ cfg.texFilename ++ " found in the ZIP file".toList, []⟩)⟩
      | none =>
        let name := pdfName cfg.texFilename
        let pdfPath := Join tmpDir name
        let compiled := withDefer Effect.cancel (compileStage env tmpDir texPath name pdfPath)
        ⟨saved ++ unzip.trace ++ compiled.trace, compiled.outcome⟩

/-- The handler from `filename := filepath.Base(hdr.Filename)` on (after
`defer file.Close()`). -/
def uploadStage (cfg : Config) (env : Env) (maxBytes : Int) (hdrFilename : GoString) :
    HandlerRun :=
  let filename := Base hdrFilename
  if filename = [] ∨ !HasSuffix (env.ToLower filename) expectedZipSuffix then
    failWith StatusBadRequest "Invalid file type. Please upload a ZIP file.".toList
  else
    match env.mkdirTemp with
    | .error _ => failWith StatusInternalServerError "Could not create temp dir".toList
    | .ok tmpDir =>
      let rest := withDefer (Effect.removeAll tmpDir) (workspaceStage cfg env maxBytes filename tmpDir)
      ⟨Effect.mkdirTemp tmpDir :: rest.trace, rest.outcome⟩

/-- The size limit `compileHandler` computes: `int64(maxUploadMB) * 1024 * 1024`. -/
def maxBytesOf (cfg : Config) : Int :=
  wrap64 (wrap64 (wrap64 cfg.maxUploadMB * 1024) * 1024)

/-- `compileHandler(w, r)`. -/
def compileHandler (cfg : Config) (env : Env) : HandlerRun :=
  if env.Method ≠ "POST".toList then
    failWith StatusMethodNotAllowed "Method not allowed".toList
  else
    let maxBytes := maxBytesOf cfg
    match env.parseMultipartForm with
    | some err =>
      failWithDetails StatusBadRequest "Failed to parse multipart form".toList err
    | none =>
      match env.formFile with
      | .error _ =>
        failWith StatusBadRequest
          ("No ".toList ++ env.Quote cfg.formFieldName ++ " file provided".toList)
      | .ok hdrFilename => withDefer Effect.closeUpload (uploadStage cfg env maxBytes hdrFilename)

/-! ## Notions used to state the properties -/

/-- The paths a trace creates or writes: the directory made for a directory entry, the
file opened for a regular entry, the file copied into. -/
def writtenPaths : List Effect → List GoString
  | [] => []
  | Effect.mkdirAll path :: rest => path :: writtenPaths rest
  | Effect.openFile path _ :: rest => path :: writtenPaths rest
  | Effect.copy path :: rest => path :: writtenPaths rest
  | _ :: rest => writtenPaths rest

/-- The parent directories a trace asks `os.MkdirAll` to ensure for regular entries. -/
def parentPaths : List Effect → List GoString
  | [] => []
  | Effect.mkdirParent path :: rest => path :: parentPaths rest
  | _ :: rest => parentPaths rest

/-- The runs of the external compiler in a trace, in order, each with its working
directory and its input path. -/
def pdflatexCalls : List Effect → List (GoString × GoString)
  | [] => []
  | Effect.runPdflatex workDir texPath :: rest => (workDir, texPath) :: pdflatexCalls rest
  | _ :: rest => pdflatexCalls rest

/-- The request is a well-formed upload and its workspace `tmpDir` was created: the
handler got past `os.MkdirTemp`. -/
def WorkspaceCreated (_cfg : Config) (env : Env) (tmpDir : GoString) : Prop :=
  env.Method = "POST".toList ∧ env.parseMultipartForm = none ∧
    ∃ hdrFilename, env.formFile = .ok hdrFilename ∧
      Base hdrFilename ≠ [] ∧
      HasSuffix (env.ToLower (Base hdrFilename)) expectedZipSuffix = true ∧
      env.mkdirTemp = .ok tmpDir

/-- The request got through extraction: its workspace `tmpDir` was created, the upload
was saved and `unzipSecure` returned nil. -/
def Extracted (cfg : Config) (env : Env) (tmpDir : GoString) : Prop :=
  WorkspaceCreated cfg env tmpDir ∧ env.create = none ∧ env.copyUpload = none ∧
    (unzipSecure env.archive tmpDir (maxBytesOf cfg)).outcome = .ok

/-- The request reached the compiler: it got through extraction and `os.Stat(texPath)`
found the entry point. -/
def CompilerReached (cfg : Config) (env : Env) (tmpDir : GoString) : Prop :=
  Extracted cfg env tmpDir ∧ env.statTex = none

/-- A real path element: a name, neither empty nor `.` nor `..`, without separator. -/
def RealElem (e : GoString) : Prop :=
  e ≠ [] ∧ e ≠ ['.'] ∧ e ≠ ['.', '.'] ∧ Separator ∉ e

/-- The stack of a path that is not rooted: real elements on top of `..` elements. -/
def RelStack (st : List GoString) : Prop :=
  ∃ reals k, st = reals ++ List.replicate k ['.', '.'] ∧ ∀ e ∈ reals, RealElem e

/-- The sum of the declared uncompressed sizes of the entries. -/
def declaredSum : List ZipFile → Nat
  | [] => 0
  | zf :: rest => zf.UncompressedSize64 + declaredSum rest

/-- The name check of `unzipSecure` rejects the entry name: its cleaned form starts with
`..` or contains `:`. -/
def nameRejected (name : GoString) : Bool :=
  HasPrefix (Clean name) ['.', '.'] || Contains (Clean name) [':']

/-- The archive stays within the size budget: started from `total`, the running counter
of `unzipSecure` never exceeds `sizeLimit * 5`. -/
def withinBudget (sizeLimit : Int) : Int → List ZipFile → Bool
  | _, [] => true
  | total, zf :: rest =>
    decide (wrap64 (total + wrap64 zf.UncompressedSize64) ≤ wrap64 (sizeLimit * 5)) &&
      withinBudget sizeLimit (wrap64 (total + wrap64 zf.UncompressedSize64)) rest

/-- The run never reached the compiler: no compiler run, no compilation failure, no PDF. -/
def NotCompiled (run : HandlerRun) : Prop :=
  pdflatexCalls run.trace = [] ∧
    (∀ code v, run.outcome = .responded (.json code v) → v.Error.head? ≠ some 'L') ∧
    ∀ n p, run.outcome ≠ .responded (.pdf n p)

/-- The paths present after the effects of a trace, one after the other, starting from
the paths `fs`, when `sem` says how one effect changes the paths that exist. -/
def pathsAfter (sem : Effect → List GoString → List GoString) (fs : List GoString)
    (trace : List Effect) : List GoString :=
  trace.foldl (fun present e => sem e present) fs

/-- What is assumed of the filesystem for a removal: after `os.RemoveAll(dir)` no path
that is `dir` or lies beneath it exists, and closing the upload changes no path.  Every
other effect, a run of the compiler included, may change the paths in any way. -/
def RemovalSound (sem : Effect → List GoString → List GoString) : Prop :=
  (∀ dir fs, ∀ p ∈ sem (Effect.removeAll dir) fs, withinDest dir p = false) ∧
    ∀ fs, sem Effect.closeUpload fs = fs

/-- The filesystem as the handler's own calls change it: a created path comes to exist,
`os.RemoveAll(dir)` removes `dir` and every path beneath it, and the compiler writes
nothing. -/
def ownPaths (e : Effect) (fs : List GoString) : List GoString :=
  match e with
  | .mkdirTemp dir => dir :: fs
  | .create path => path :: fs
  | .mkdirAll path => path :: fs
  | .mkdirParent path => path :: fs
  | .openFile path _ => path :: fs
  | .removeAll dir => fs.filter (fun p => !withinDest dir p)
  | _ => fs

/-! ## Sample inputs -/

/-- A regular entry with mode `0644` for which every call succeeds. -/
def regularEntry (name : GoString) (size : Nat) : ZipFile :=
  ⟨name, size, false, 420, EntryCalls.allOk⟩

/-- A directory entry with mode `0755` for which every call succeeds. -/
def directoryEntry (name : GoString) : ZipFile :=
  ⟨name, 0, true, 493, EntryCalls.allOk⟩

/-- A regular entry whose target cannot be opened: `os.OpenFile` answers `err`. -/
def unwritableEntry (name : GoString) (size : Nat) (err : OsError) : ZipFile :=
  ⟨name, size, false, 420, ⟨none, none, some err, none⟩⟩

/-- The default configuration: no environment variable set. -/
def sampleConfig : Config :=
  ⟨50, 120, "file".toList, "document.tex".toList⟩

/-- A workspace directory as `os.MkdirTemp("", "latex-")` names it. -/
def sampleDest : GoString := "/tmp/latex-1".toList

/-- The size limit of the default configuration: 50 MiB. -/
def sampleLimit : Int := 52428800

/-- A small well-formed project. -/
def sampleArchive : List ZipFile :=
  [regularEntry "document.tex".toList 2048, directoryEntry "figs/".toList,
    regularEntry "figs/plot.png".toList 4096]

/-- A request for which everything succeeds: the upload is `report.zip` holding
`sampleArchive`, and the compiler runs cleanly twice. -/
def sampleEnv : Env where
  Method := "POST".toList
  parseMultipartForm := none
  formFile := .ok "report.zip".toList
  ToLower := id
  Quote := id
  mkdirTemp := .ok sampleDest
  create := none
  copyUpload := none
  archive := .ok sampleArchive
  statTex := none
  pdflatex := fun _ _ _ => ("Output written on document.pdf".toList, none)
  openPdf := none
  statPdf := none

/-- The request of `sampleEnv` with a compiler whose `failing`-th run exits non-zero
after printing a kilobyte of x ten times over. -/
def failingCompilerEnv (failing : Nat) : Env :=
  { sampleEnv with
    pdflatex := fun n _ _ =>
      if n = failing then (List.replicate 10240 'x', some "exit status 1".toList)
      else ("Output written on document.pdf".toList, none) }

/-- The request of `sampleEnv` with an archive that lacks the entry point. -/
def missingEntryPointEnv : Env :=
  { sampleEnv with
    archive := .ok [regularEntry "other.tex".toList 2048]
    statTex := some "stat /tmp/latex-1/document.tex: no such file or directory".toList }

/-- An archive whose second entry has the name of the directory made for the first, so
that `os.OpenFile` fails on it. -/
def clashingArchive : List ZipFile :=
  [directoryEntry "a/".toList,
    unwritableEntry "a".toList 1 "open /tmp/latex-1/a: is a directory".toList]

/-- The request of `sampleEnv` with `clashingArchive`. -/
def clashingEnv : Env :=
  { sampleEnv with archive := .ok clashingArchive }

/-- A regular entry whose bytes cannot be copied: `io.Copy` answers `err`. -/
def truncatedEntry (name : GoString) (size : Nat) (err : OsError) : ZipFile :=
  ⟨name, size, false, 420, ⟨none, none, none, some err⟩⟩

/-- A regular entry that cannot be read: `zf.Open()` answers `err`. -/
def unreadableEntry (name : GoString) (size : Nat) (err : OsError) : ZipFile :=
  ⟨name, size, false, 420, ⟨none, some err, none, none⟩⟩

/-- An archive whose first entry cannot be read and whose second entry escapes the
destination. -/
def unreadableThenEscapingArchive : List ZipFile :=
  [unreadableEntry "a.tex".toList 1 "zip: unsupported compression algorithm".toList,
    regularEntry "../x".toList 0]

/-- An archive whose first entry escapes the destination and whose second entry could
not be written. -/
def escapingArchive : List ZipFile :=
  [regularEntry "../x".toList 0,
    unwritableEntry "b".toList 1 "open /tmp/latex-1/b: permission denied".toList]

/-- An archive whose first entry is the regular file `.`, whose target is the
destination itself, and whose second entry escapes the destination. -/
def dotArchive : List ZipFile :=
  [regularEntry ".".toList 0, regularEntry "../x".toList 0]

/-- An archive whose first entry is rejected for its name and whose second entry
declares a terabyte. -/
def rejectedThenHugeArchive : List ZipFile :=
  [regularEntry "../x".toList 0, regularEntry "big.bin".toList 1000000000000]

/-- An archive whose second entry declares a terabyte. -/
def hugeArchive : List ZipFile :=
  [regularEntry "document.tex".toList 2048, regularEntry "big.bin".toList 1000000000000,
    regularEntry "after.tex".toList 1]

/-! ## Lemmas -/

theorem hasPrefix_iff (s p : GoString) : HasPrefix s p = true ↔ p <+: s := by
  simp [HasPrefix]

theorem hasSuffix_iff (s p : GoString) : HasSuffix s p = true ↔ p <:+ s := by
  simp [HasSuffix]

theorem extScan_suffix (r acc : GoString) : extScan r acc <:+ r.reverse ++ acc := by
  induction r generalizing acc with
  | nil => simp [extScan]
  | cons c cs ih =>
    simp only [extScan]
    split
    · exact List.nil_suffix
    · split
      · simp
      · have := ih (c :: acc)
        simpa using this

theorem extScan_shape (r acc : GoString) (hacc : '.' ∉ acc ∧ Separator ∉ acc) :
    extScan r acc = [] ∨ ∃ e, extScan r acc = '.' :: e ∧ '.' ∉ e ∧ Separator ∉ e := by
  induction r generalizing acc with
  | nil => simp [extScan]
  | cons c cs ih =>
    simp only [extScan]
    split
    · exact Or.inl rfl
    · split
      · rename_i h1 h2
        exact Or.inr ⟨acc, by rw [h2], hacc.1, hacc.2⟩
      · rename_i h1 h2
        apply ih
        constructor
        · simp only [List.mem_cons, not_or]
          exact ⟨fun h => h2 h.symm, hacc.1⟩
        · simp only [List.mem_cons, not_or]
          exact ⟨fun h => h1 h.symm, hacc.2⟩

theorem extScan_nil (r acc : GoString) (h : extScan r acc = []) :
    ∀ t, t <+: r → Separator ∉ t → '.' ∉ t := by
  induction r generalizing acc with
  | nil =>
    intro t ht _
    simp at ht
    simp [ht]
  | cons c cs ih =>
    intro t ht hsep
    simp only [extScan] at h
    cases t with
    | nil => simp
    | cons d ds =>
      rw [List.cons_prefix_cons] at ht
      obtain ⟨rfl, hds⟩ := ht
      simp only [List.mem_cons, not_or] at hsep
      split at h
      · rename_i h1
        exact absurd h1.symm hsep.1
      · split at h
        · simp at h
        · rename_i h1 h2
          simp only [List.mem_cons, not_or]
          exact ⟨fun hh => h2 hh.symm, ih _ h ds hds hsep.2⟩

theorem Ext_suffix (path : GoString) : Ext path <:+ path := by
  have := extScan_suffix path.reverse []
  simpa [Ext] using this

theorem trimSuffix_append (stem suffix : GoString) :
    TrimSuffix (stem ++ suffix) suffix = stem := by
  have h : HasSuffix (stem ++ suffix) suffix = true := by
    rw [hasSuffix_iff]; exact List.suffix_append _ _
  simp [TrimSuffix, h]

theorem pdfName_spec (texFilename : GoString) :
    ∃ stem, pdfName texFilename = stem ++ ['.', 'p', 'd', 'f'] ∧
      stem ++ Ext texFilename = texFilename := by
  obtain ⟨stem, hstem⟩ := Ext_suffix texFilename
  refine ⟨stem, ?_, hstem⟩
  have h : TrimSuffix texFilename (Ext texFilename) = stem := by
    conv => lhs; arg 1; rw [← hstem]
    exact trimSuffix_append _ _
  simp only [pdfName, h]
  rfl

theorem tail_spec (s : GoString) (max : Int) (h : 0 ≤ max) :
    ∃ t, tail s max = some t ∧ t <:+ s ∧ (t.length : Int) = min (s.length : Int) max := by
  unfold tail
  by_cases h1 : (s.length : Int) ≤ max
  · refine ⟨s, by simp [h1], List.suffix_refl _, ?_⟩
    omega
  · have h2 : (s.length : Int) - max ≤ s.length := by omega
    refine ⟨s.drop ((s.length : Int) - max).toNat, by simp [h1, h2], List.drop_suffix _ _, ?_⟩
    rw [List.length_drop]
    omega

theorem splitSep_ne_nil (s : GoString) : splitSep s ≠ [] := by
  cases s with
  | nil => simp [splitSep]
  | cons c cs =>
    simp only [splitSep]
    split
    · simp
    · split <;> simp

theorem splitSep_no_sep (s : GoString) : ∀ e ∈ splitSep s, Separator ∉ e := by
  induction s with
  | nil => simp [splitSep]
  | cons c cs ih =>
    intro e he
    simp only [splitSep] at he
    split at he
    · simp only [List.mem_cons] at he
      rcases he with rfl | he
      · simp
      · exact ih e he
    · rename_i hc
      split at he
      · simp only [List.mem_singleton] at he
        subst he
        simp only [List.mem_singleton]
        exact fun h => hc h.symm
      · rename_i e1 es heq
        simp only [List.mem_cons] at he
        rcases he with rfl | he
        · simp only [List.mem_cons, not_or]
          exact ⟨fun h => hc h.symm, ih e1 (by rw [heq]; exact List.mem_cons_self _ _)⟩
        · exact ih e (by rw [heq]; exact List.mem_cons_of_mem _ he)

theorem splitSep_append_sep (a b : GoString) :
    splitSep (a ++ Separator :: b) = splitSep a ++ splitSep b := by
  induction a with
  | nil => simp [splitSep]
  | cons c cs ih =>
    simp only [List.cons_append, splitSep]
    split
    · simp [ih]
    · have ih2 : splitSep (cs.append (Separator :: b)) = splitSep cs ++ splitSep b := ih
      rw [ih2]
      have hne := splitSep_ne_nil cs
      cases h : splitSep cs with
      | nil => exact absurd h hne
      | cons e es => simp

theorem splitSep_of_no_sep (e : GoString) (h : Separator ∉ e) : splitSep e = [e] := by
  induction e with
  | nil => rfl
  | cons c cs ih =>
    simp only [List.mem_cons, not_or] at h
    simp only [splitSep]
    rw [if_neg (fun hc => h.1 hc.symm), ih h.2]

theorem joinElems_cons_cons (e e2 : GoString) (es : List GoString) :
    joinElems (e :: e2 :: es) = e ++ Separator :: joinElems (e2 :: es) := rfl

theorem splitSep_joinElems (es : List GoString) (hne : es ≠ [])
    (h : ∀ e ∈ es, Separator ∉ e) : splitSep (joinElems es) = es := by
  induction es with
  | nil => exact absurd rfl hne
  | cons e rest ih =>
    cases rest with
    | nil => exact splitSep_of_no_sep e (h e (List.mem_cons_self _ _))
    | cons e2 rest2 =>
      rw [joinElems_cons_cons, splitSep_append_sep,
        splitSep_of_no_sep e (h e (List.mem_cons_self _ _)),
        ih (by simp) (fun x hx => h x (List.mem_cons_of_mem _ hx))]
      rfl

theorem joinElems_append (as bs : List GoString) (ha : as ≠ []) (hb : bs ≠ []) :
    joinElems (as ++ bs) = joinElems as ++ Separator :: joinElems bs := by
  induction as with
  | nil => exact absurd rfl ha
  | cons a rest ih =>
    cases rest with
    | nil =>
      cases bs with
      | nil => exact absurd rfl hb
      | cons b bs2 => rfl
    | cons a2 rest2 =>
      rw [List.cons_append, List.cons_append, joinElems_cons_cons, ← List.cons_append,
        ih (by simp), joinElems_cons_cons]
      simp

theorem cleanStep_real (rooted : Bool) (st : List GoString) (e : GoString) (h : RealElem e) :
    cleanStep rooted st e = e :: st := by
  obtain ⟨h1, h2, h3, _⟩ := h
  simp [cleanStep, h1, h2, h3]

theorem foldl_cleanStep_real (rooted : Bool) (es st : List GoString)
    (h : ∀ e ∈ es, RealElem e) :
    es.foldl (cleanStep rooted) st = es.reverse ++ st := by
  induction es generalizing st with
  | nil => rfl
  | cons e rest ih =>
    rw [List.foldl_cons, cleanStep_real rooted st e (h e (List.mem_cons_self _ _)),
      ih _ (fun x hx => h x (List.mem_cons_of_mem _ hx))]
    simp

theorem cleanStep_empty (rooted : Bool) (st : List GoString) : cleanStep rooted st [] = st := by
  simp [cleanStep]

theorem cleanStep_dot (rooted : Bool) (st : List GoString) :
    cleanStep rooted st ['.'] = st := by
  simp [cleanStep]

/-- Rooted paths: the stack only ever holds real elements. -/
theorem foldl_cleanStep_rooted (es st : List GoString) (hes : ∀ e ∈ es, Separator ∉ e)
    (hst : ∀ e ∈ st, RealElem e) : ∀ e ∈ es.foldl (cleanStep true) st, RealElem e := by
  induction es generalizing st with
  | nil => exact hst
  | cons x rest ih =>
    rw [List.foldl_cons]
    apply ih _ (fun e he => hes e (List.mem_cons_of_mem _ he))
    intro e he
    unfold cleanStep at he
    split at he
    · exact hst e he
    · rename_i h1
      rw [not_or] at h1
      split at he
      · cases st with
        | nil => simp at he
        | cons top below =>
          simp at he
          exact hst e (List.mem_cons_of_mem _ he)
      · rename_i h2
        simp only [List.mem_cons] at he
        rcases he with rfl | he
        · exact ⟨h1.1, h1.2, h2, hes e (List.mem_cons_self _ _)⟩
        · exact hst e he

theorem cleanStep_relStack (st : List GoString) (x : GoString) (hx : Separator ∉ x)
    (hst : RelStack st) : RelStack (cleanStep false st x) := by
  unfold cleanStep
  split
  · exact hst
  · rename_i h1
    rw [not_or] at h1
    split
    · rename_i h2
      subst h2
      obtain ⟨reals, k, rfl, hr⟩ := hst
      cases reals with
      | nil =>
        cases k with
        | zero => exact ⟨[], 1, rfl, by simp⟩
        | succ n =>
          refine ⟨[], n + 2, ?_, by simp⟩
          simp [List.replicate_succ]
      | cons top below =>
        have htop := hr top (List.mem_cons_self _ _)
        have : top ≠ ['.', '.'] := htop.2.2.1
        simp only [List.cons_append, Bool.not_false, Bool.true_and, decide_eq_true_eq, this,
          if_false]
        exact ⟨below, k, rfl, fun e he => hr e (List.mem_cons_of_mem _ he)⟩
    · rename_i h2
      obtain ⟨reals, k, rfl, hr⟩ := hst
      refine ⟨x :: reals, k, rfl, ?_⟩
      intro e he
      simp only [List.mem_cons] at he
      rcases he with rfl | he
      · exact ⟨h1.1, h1.2, h2, hx⟩
      · exact hr e he

theorem foldl_cleanStep_relStack (es st : List GoString) (hes : ∀ e ∈ es, Separator ∉ e)
    (hst : RelStack st) : RelStack (es.foldl (cleanStep false) st) := by
  induction es generalizing st with
  | nil => exact hst
  | cons x rest ih =>
    rw [List.foldl_cons]
    exact ih _ (fun e he => hes e (List.mem_cons_of_mem _ he))
      (cleanStep_relStack st x (hes x (List.mem_cons_self _ _)) hst)

/-- The shape of a cleaned name that does not start with `..`. -/
theorem Clean_shape (name : GoString) (h : HasPrefix (Clean name) ['.', '.'] = false) :
    Clean name = ['.'] ∨
      ∃ es, (∀ e ∈ es, RealElem e) ∧
        (Clean name = Separator :: joinElems es ∨ (es ≠ [] ∧ Clean name = joinElems es)) := by
  unfold Clean at h ⊢
  by_cases hn : name = []
  · simp [hn]
  · simp only [hn, if_false] at h ⊢
    by_cases hr : HasPrefix name [Separator] = true
    · simp only [hr, if_true] at h ⊢
      right
      refine ⟨_, ?_, Or.inl rfl⟩
      intro e he
      rw [List.mem_reverse] at he
      exact foldl_cleanStep_rooted _ [] (splitSep_no_sep name) (by simp) e he
    · simp only [Bool.not_eq_true] at hr
      simp only [hr, Bool.false_eq_true, if_false] at h ⊢
      obtain ⟨reals, k, hst, hreal⟩ :=
        foldl_cleanStep_relStack (splitSep name) [] (splitSep_no_sep name) ⟨[], 0, rfl, by simp⟩
      rw [hst] at h ⊢
      by_cases he : (reals ++ List.replicate k ['.', '.']).reverse = []
      · simp [he]
      · right
        simp only [he, if_false] at h ⊢
        cases k with
        | zero =>
          refine ⟨reals.reverse, ?_, Or.inr ⟨by simpa using he, by simp⟩⟩
          intro e he2
          exact hreal e (List.mem_reverse.mp he2)
        | succ n =>
          exfalso
          have : (reals ++ List.replicate (n + 1) ['.', '.']).reverse =
              ['.', '.'] :: (List.replicate n ['.', '.'] ++ reals.reverse) := by
            rw [List.reverse_append, List.reverse_replicate, List.replicate_succ]
            rfl
          rw [this] at h
          cases hrest : List.replicate n ['.', '.'] ++ reals.reverse with
          | nil => rw [hrest] at h; simp [joinElems, HasPrefix] at h
          | cons a as => rw [hrest] at h; simp [joinElems, HasPrefix] at h

theorem Clean_rooted (rest : GoString) :
    Clean (Separator :: rest) =
      Separator :: joinElems ((splitSep rest).foldl (cleanStep true) []).reverse := by
  have h1 : HasPrefix (Separator :: rest) [Separator] = true := by simp [HasPrefix]
  have h2 : splitSep (Separator :: rest) = [] :: splitSep rest := by simp [splitSep]
  simp [Clean, h1, h2, cleanStep_empty]

/-- A clean rooted path other than the root is a separator followed by real elements. -/
theorem clean_dest_shape (dest : GoString) (hclean : Clean dest = dest)
    (habs : HasPrefix dest [Separator] = true) (hroot : dest ≠ [Separator]) :
    ∃ ds, ds ≠ [] ∧ (∀ e ∈ ds, RealElem e) ∧ dest = Separator :: joinElems ds := by
  cases dest with
  | nil => simp [HasPrefix] at habs
  | cons c rest =>
    have hc : c = Separator := by
      simp [HasPrefix] at habs
      exact habs.symm
    subst hc
    rw [Clean_rooted] at hclean
    refine ⟨((splitSep rest).foldl (cleanStep true) []).reverse, ?_, ?_, hclean.symm⟩
    · intro h
      rw [h] at hclean
      exact hroot (by rw [← hclean]; rfl)
    · intro e he
      rw [List.mem_reverse] at he
      exact foldl_cleanStep_rooted _ [] (splitSep_no_sep rest) (by simp) e he

theorem Join_real (ds es : List GoString) (hds : ds ≠ []) (hdr : ∀ e ∈ ds, RealElem e)
    (X : List GoString) (c : GoString)
    (hX : splitSep c = X) (hfold : ∀ st, X.foldl (cleanStep true) st = es.reverse ++ st) :
    Join (Separator :: joinElems ds) c =
      if es = [] then Separator :: joinElems ds
      else (Separator :: joinElems ds) ++ Separator :: joinElems es := by
  have hne : (Separator :: joinElems ds) ≠ [] := by simp
  simp only [Join, ne_eq, hne, not_false_eq_true, if_true]
  rw [List.cons_append, Clean_rooted, splitSep_append_sep,
    splitSep_joinElems ds hds (fun e he => (hdr e he).2.2.2), hX, List.foldl_append,
    foldl_cleanStep_real true ds [] hdr, hfold]
  by_cases hes : es = []
  · simp [hes]
  · simp only [hes, if_false]
    rw [List.reverse_append, List.reverse_reverse, List.append_nil, List.reverse_reverse,
      joinElems_append ds es hds hes]
    rfl

theorem Join_within (dest name : GoString) (hclean : Clean dest = dest)
    (habs : HasPrefix dest [Separator] = true) (hroot : dest ≠ [Separator])
    (h : HasPrefix (Clean name) ['.', '.'] = false) :
    Join dest (Clean name) = dest ∨ (dest ++ [Separator]) <+: Join dest (Clean name) := by
  obtain ⟨ds, hds, hdr, rfl⟩ := clean_dest_shape dest hclean habs hroot
  have fin : ∀ es : List GoString,
      Join (Separator :: joinElems ds) (Clean name) =
        (if es = [] then Separator :: joinElems ds
          else (Separator :: joinElems ds) ++ Separator :: joinElems es) →
      Join (Separator :: joinElems ds) (Clean name) = Separator :: joinElems ds ∨
        ((Separator :: joinElems ds) ++ [Separator]) <+:
          Join (Separator :: joinElems ds) (Clean name) := by
    intro es hj
    by_cases hes : es = []
    · left; simpa [hes] using hj
    · right
      rw [hj]
      simp only [hes, if_false]
      exact ⟨joinElems es, by simp⟩
  rcases Clean_shape name h with hc | ⟨es, her, hc | ⟨hes, hc⟩⟩
  · apply fin []
    rw [hc]
    apply Join_real ds [] hds hdr [['.']] ['.'] (by decide)
    intro st
    simp [cleanStep_dot]
  · apply fin es
    rw [hc]
    by_cases hes : es = []
    · subst hes
      apply Join_real ds [] hds hdr [[], []] _ (by simp [splitSep, joinElems])
      intro st
      simp [cleanStep_empty]
    · apply Join_real ds es hds hdr ([] :: es) _
      · simp [splitSep, splitSep_joinElems es hes (fun e he => (her e he).2.2.2)]
      · intro st
        rw [List.foldl_cons, cleanStep_empty, foldl_cleanStep_real true es st her]
  · apply fin es
    rw [hc]
    apply Join_real ds es hds hdr es _
      (splitSep_joinElems es hes (fun e he => (her e he).2.2.2))
    intro st
    exact foldl_cleanStep_real true es st her

theorem wrap64_of_fits (x : Int) (h1 : -2 ^ 63 ≤ x) (h2 : x < 2 ^ 63) : wrap64 x = x := by
  unfold wrap64
  norm_num at h1 h2 ⊢
  omega

/-- The size check comes first in an iteration. -/
theorem unzipEntry_tooLarge (dest : GoString) (limit total : Int) (zf : ZipFile)
    (h : wrap64 (limit * 5) < wrap64 (total + wrap64 zf.UncompressedSize64)) :
    unzipEntry dest limit total zf = ([], .leave (.error .tooLarge)) := by
  simp [unzipEntry, h]

/-- The name check comes second. -/
theorem unzipEntry_rejected (dest : GoString) (limit total : Int) (zf : ZipFile)
    (h : wrap64 (total + wrap64 zf.UncompressedSize64) ≤ wrap64 (limit * 5))
    (hr : nameRejected zf.Name = true) :
    unzipEntry dest limit total zf = ([], .leave (.error (.suspiciousPath zf.Name))) := by
  have h2 : ¬ wrap64 (limit * 5) < wrap64 (total + wrap64 zf.UncompressedSize64) := not_lt.mpr h
  unfold nameRejected at hr
  simp only [unzipEntry, gt_iff_lt, h2, if_false, hr, if_true]

/-- How an iteration can end. -/
theorem unzipEntry_step (dest : GoString) (limit total : Int) (zf : ZipFile) :
    (∀ t, (unzipEntry dest limit total zf).2 = .next t →
      t = wrap64 (total + wrap64 zf.UncompressedSize64) ∧
      wrap64 (total + wrap64 zf.UncompressedSize64) ≤ wrap64 (limit * 5) ∧
      nameRejected zf.Name = false) ∧
    (∀ o, (unzipEntry dest limit total zf).2 = .leave o → o ≠ .ok) := by
  unfold unzipEntry nameRejected
  simp only
  split
  · simp
  · rename_i h1
    rw [gt_iff_lt, not_lt] at h1
    split
    · simp
    · rename_i h2
      simp only [Bool.not_eq_true] at h2
      split
      · simp
      · split
        · split <;> simp [h1, h2]
        · split
          · simp
          · split
            · simp
            · split <;> simp [h1, h2]

theorem unzipLoop_cons (dest : GoString) (limit total : Int) (zf : ZipFile)
    (rest : List ZipFile) :
    unzipLoop dest limit total (zf :: rest) =
      match (unzipEntry dest limit total zf).2 with
      | .leave outcome => ⟨(unzipEntry dest limit total zf).1, outcome⟩
      | .next t =>
        ⟨(unzipEntry dest limit total zf).1 ++ (unzipLoop dest limit t rest).trace,
          (unzipLoop dest limit t rest).outcome⟩ := by
  rw [unzipLoop]
  rcases h : unzipEntry dest limit total zf with ⟨effects, step⟩
  cases step <;> simp

theorem declaredSum_take_le (files : List ZipFile) (k : Nat) :
    declaredSum (files.take k) ≤ declaredSum files := by
  induction files generalizing k with
  | nil => simp [declaredSum]
  | cons zf rest ih =>
    cases k with
    | zero => simp [declaredSum]
    | succ n =>
      simp only [List.take_succ_cons, declaredSum]
      have := ih n
      omega

/-- The bomb guard, without overflow: the loop stops at the first entry whose running
sum exceeds the bound, having done exactly what it does on the entries before it. -/
theorem unzipLoop_over (dest : GoString) (limit : Int) (hl1 : -2 ^ 63 ≤ limit * 5)
    (hl2 : limit * 5 < 2 ^ 63) (files : List ZipFile) (total : Int) (h0 : 0 ≤ total)
    (hfit : total + declaredSum files < 2 ^ 63) (hover : limit * 5 < total + declaredSum files)
    (hne : files ≠ []) :
    ∃ k, k < files.length ∧ limit * 5 < total + declaredSum (files.take (k + 1)) ∧
      (∀ j, j < k → total + declaredSum (files.take (j + 1)) ≤ limit * 5) ∧
      (unzipLoop dest limit total files).trace =
        (unzipLoop dest limit total (files.take k)).trace ∧
      ((unzipLoop dest limit total (files.take k)).outcome = .ok →
        (unzipLoop dest limit total files).outcome = .error .tooLarge) ∧
      ((unzipLoop dest limit total (files.take k)).outcome ≠ .ok →
        (unzipLoop dest limit total files).outcome =
          (unzipLoop dest limit total (files.take k)).outcome) := by
  induction files generalizing total with
  | nil => exact absurd rfl hne
  | cons zf rest ih =>
    simp only [declaredSum] at hfit hover
    have hsz : wrap64 (zf.UncompressedSize64 : Int) = zf.UncompressedSize64 :=
      wrap64_of_fits _ (by norm_num; omega) (by push_cast at hfit ⊢; omega)
    have htot : wrap64 (total + wrap64 zf.UncompressedSize64) = total + zf.UncompressedSize64 := by
      rw [hsz]
      exact wrap64_of_fits _ (by norm_num; omega) (by push_cast at hfit ⊢; omega)
    have hlim : wrap64 (limit * 5) = limit * 5 := wrap64_of_fits _ hl1 hl2
    by_cases hex : limit * 5 < total + zf.UncompressedSize64
    · -- the first entry already exceeds the bound
      refine ⟨0, by simp, ?_, by simp, ?_, ?_, ?_⟩
      · simp only [zero_add, List.take_succ_cons, List.take_zero, declaredSum]
        push_cast
        omega
      · rw [unzipLoop_cons, unzipEntry_tooLarge dest limit total zf (by rw [hlim, htot]; exact hex)]
        simp [unzipLoop]
      · intro _
        rw [unzipLoop_cons, unzipEntry_tooLarge dest limit total zf (by rw [hlim, htot]; exact hex)]
      · intro h
        simp [unzipLoop] at h
    · have hrest : rest ≠ [] := by
        intro h
        subst h
        simp only [declaredSum] at hover
        push_cast at hover
        omega
      obtain ⟨k, hk, hk1, hk2, htr, hok, hnok⟩ :=
        ih (total + zf.UncompressedSize64) (by omega) (by push_cast at hfit ⊢; omega)
          (by push_cast at hover ⊢; omega) hrest
      refine ⟨k + 1, by simpa using hk, ?_, ?_, ?_, ?_, ?_⟩
      · simp only [List.take_succ_cons, declaredSum]
        push_cast
        omega
      · intro j hj
        cases j with
        | zero =>
          simp only [zero_add, List.take_succ_cons, List.take_zero, declaredSum]
          push_cast
          omega
        | succ n =>
          have := hk2 n (by omega)
          simp only [List.take_succ_cons, declaredSum]
          push_cast
          omega
      all_goals
        simp only [List.take_succ_cons]
        rw [unzipLoop_cons, unzipLoop_cons]
        obtain ⟨hnext, hleave⟩ := unzipEntry_step dest limit total zf
        cases hstep : (unzipEntry dest limit total zf).2 with
        | leave o =>
          have := hleave o hstep
          simp [this]
        | next t =>
          obtain ⟨ht, -, -⟩ := hnext t hstep
          rw [htot] at ht
          subst ht
          simp only
          first
            | rw [htr]
            | exact hok
            | exact hnok

/-- With a clean rooted destination other than the root, the containment test of an
iteration never fails. -/
theorem unzipEntry_no_zipSlip (dest : GoString) (hclean : Clean dest = dest)
    (habs : HasPrefix dest [Separator] = true) (hroot : dest ≠ [Separator])
    (limit total : Int) (zf : ZipFile) (name : GoString) :
    (unzipEntry dest limit total zf).2 ≠ .leave (.error (.zipSlip name)) := by
  unfold unzipEntry
  simp only
  split
  · simp
  · split
    · simp
    · rename_i h2
      simp only [Bool.or_eq_true, not_or, Bool.not_eq_true] at h2
      have hw := Join_within dest zf.Name hclean habs hroot h2.1
      split
      · rename_i h3
        exfalso
        simp only [Bool.and_eq_true, Bool.not_eq_true', bne_iff_ne, ne_eq] at h3
        rcases hw with hw | hw
        · exact h3.2 hw
        · have : HasPrefix (Join dest (Clean zf.Name)) (dest ++ [Separator]) = true := by
            simp [HasPrefix, hw]
          rw [this] at h3
          exact absurd h3.1 (by simp)
      · split
        · split <;> simp
        · split
          · simp
          · split
            · simp
            · split <;> simp

theorem unzipLoop_no_zipSlip (dest : GoString) (hclean : Clean dest = dest)
    (habs : HasPrefix dest [Separator] = true) (hroot : dest ≠ [Separator])
    (limit : Int) (files : List ZipFile) (total : Int) (name : GoString) :
    (unzipLoop dest limit total files).outcome ≠ .error (.zipSlip name) := by
  induction files generalizing total with
  | nil => simp [unzipLoop]
  | cons zf rest ih =>
    rw [unzipLoop_cons]
    have h := unzipEntry_no_zipSlip dest hclean habs hroot limit total zf name
    cases hstep : (unzipEntry dest limit total zf).2 with
    | leave o =>
      simp only
      intro ho
      rw [ho] at hstep
      exact h hstep
    | next t => exact ih t

theorem pdflatexCalls_append (a b : List Effect) :
    pdflatexCalls (a ++ b) = pdflatexCalls a ++ pdflatexCalls b := by
  induction a with
  | nil => rfl
  | cons e es ih => cases e <;> simp [pdflatexCalls, ih]

theorem pdflatexCalls_eq_nil (tr : List Effect)
    (h : ∀ e ∈ tr, ∀ workDir texPath, e ≠ Effect.runPdflatex workDir texPath) :
    pdflatexCalls tr = [] := by
  induction tr with
  | nil => rfl
  | cons e es ih =>
    have h1 := h e (List.mem_cons_self _ _)
    have h2 := ih (fun x hx => h x (List.mem_cons_of_mem _ hx))
    cases e <;> simp_all [pdflatexCalls]

theorem writeEntry_effects (targetPath : GoString) (zf : ZipFile) :
    ∀ e ∈ (writeEntry targetPath zf).1,
      e = Effect.openFile targetPath zf.Mode ∨ e = Effect.copy targetPath := by
  unfold writeEntry
  cases zf.calls.openFile with
  | some err => simp
  | none => cases zf.calls.copy <;> simp

/-- Every effect of one loop iteration is one of the four calls on the target path of
the entry, and there are effects only when the target path passed the containment test. -/
theorem unzipEntry_effects (dest : GoString) (limit total : Int) (zf : ZipFile) :
    ∀ e ∈ (unzipEntry dest limit total zf).1,
      withinDest dest (Join dest (Clean zf.Name)) = true ∧
      (e = Effect.mkdirAll (Join dest (Clean zf.Name)) ∨
        e = Effect.mkdirParent (Dir (Join dest (Clean zf.Name))) ∨
        e = Effect.openFile (Join dest (Clean zf.Name)) zf.Mode ∨
        e = Effect.copy (Join dest (Clean zf.Name))) := by
  intro e he
  unfold unzipEntry at he
  simp only at he
  split at he
  · simp at he
  · split at he
    · simp at he
    · split at he
      · simp at he
      · rename_i hw
        have hw2 : withinDest dest (Join dest (Clean zf.Name)) = true := by
          unfold withinDest
          revert hw
          cases HasPrefix (Join dest (Clean zf.Name)) (dest ++ [Separator]) <;>
            cases h : (Join dest (Clean zf.Name) == dest) <;> simp_all
        refine ⟨hw2, ?_⟩
        split at he
        · split at he <;> simp_all
        · split at he
          · simp_all
          · split at he
            · simp_all
            · split at he
              · rename_i effects err heq
                simp only [List.mem_cons] at he
                rcases he with rfl | he
                · simp
                · have := writeEntry_effects (Join dest (Clean zf.Name)) zf e (by rw [heq]; exact he)
                  tauto
              · rename_i effects heq
                simp only [List.mem_cons] at he
                rcases he with rfl | he
                · simp
                · have := writeEntry_effects (Join dest (Clean zf.Name)) zf e (by rw [heq]; exact he)
                  tauto

/-- Every effect of the loop is an effect of the iteration of one of the entries. -/
theorem unzipLoop_effects (dest : GoString) (limit total : Int) (files : List ZipFile) :
    ∀ e ∈ (unzipLoop dest limit total files).trace,
      ∃ zf ∈ files, ∃ t, e ∈ (unzipEntry dest limit t zf).1 := by
  induction files generalizing total with
  | nil => simp [unzipLoop]
  | cons zf rest ih =>
    intro e he
    unfold unzipLoop at he
    split at he
    · rename_i effects outcome heq
      exact ⟨zf, List.mem_cons_self _ _, total, by rw [heq]; exact he⟩
    · rename_i effects t heq
      simp only [List.mem_append] at he
      rcases he with he | he
      · exact ⟨zf, List.mem_cons_self _ _, total, by rw [heq]; exact he⟩
      · obtain ⟨zf2, hz, t2, h2⟩ := ih t e he
        exact ⟨zf2, List.mem_cons_of_mem _ hz, t2, h2⟩

theorem withinDest_iff (dest p : GoString) :
    withinDest dest p = true ↔ (p = dest ∨ (dest ++ [Separator]) <+: p) := by
  simp [withinDest, HasPrefix]
  tauto

theorem mem_writtenPaths (p : GoString) (tr : List Effect) :
    p ∈ writtenPaths tr ↔
      Effect.mkdirAll p ∈ tr ∨ (∃ m, Effect.openFile p m ∈ tr) ∨ Effect.copy p ∈ tr := by
  induction tr with
  | nil => simp [writtenPaths]
  | cons e es ih =>
    cases e <;> simp [writtenPaths, ih] <;> aesop

/-- Every path the loop creates or writes passed the containment test. -/
theorem unzipLoop_written_within (dest : GoString) (sizeLimit total : Int)
    (files : List ZipFile) (p : GoString)
    (hp : p ∈ writtenPaths (unzipLoop dest sizeLimit total files).trace) :
    withinDest dest p = true := by
  rw [mem_writtenPaths] at hp
  have key : ∀ e ∈ (unzipLoop dest sizeLimit total files).trace,
      ∀ q, (e = Effect.mkdirAll q ∨ (∃ m, e = Effect.openFile q m) ∨ e = Effect.copy q) →
        withinDest dest q = true := by
    intro e he q hq
    obtain ⟨zf, _, t, het⟩ := unzipLoop_effects dest sizeLimit total files e he
    obtain ⟨hw, hcases⟩ := unzipEntry_effects dest sizeLimit t zf e het
    rcases hq with rfl | ⟨m, rfl⟩ | rfl <;> simp at hcases <;> simp_all
  rcases hp with h | ⟨m, h⟩ | h
  · exact key _ h p (Or.inl rfl)
  · exact key _ h p (Or.inr (Or.inl ⟨m, rfl⟩))
  · exact key _ h p (Or.inr (Or.inr rfl))

theorem mem_parentPaths (q : GoString) (tr : List Effect) :
    q ∈ parentPaths tr ↔ Effect.mkdirParent q ∈ tr := by
  induction tr with
  | nil => simp [parentPaths]
  | cons e es ih => cases e <;> simp [parentPaths, ih]

theorem pdflatexCalls_unzipSecure (archive : Except OsError (List ZipFile)) (dest : GoString)
    (limit : Int) : pdflatexCalls (unzipSecure archive dest limit).trace = [] := by
  apply pdflatexCalls_eq_nil
  intro e he workDir texPath
  unfold unzipSecure at he
  cases archive with
  | error err => simp at he
  | ok files =>
    obtain ⟨zf, _, t, het⟩ := unzipLoop_effects dest limit 0 files e he
    obtain ⟨_, hcases⟩ := unzipEntry_effects dest limit t zf e het
    rcases hcases with rfl | rfl | rfl | rfl <;> simp

theorem compileHandler_of_workspace (cfg : Config) (env : Env) (tmpDir : GoString)
    (h : WorkspaceCreated cfg env tmpDir) :
    ∃ hdrFilename, env.formFile = .ok hdrFilename ∧
      compileHandler cfg env =
        ⟨Effect.mkdirTemp tmpDir ::
            ((workspaceStage cfg env (maxBytesOf cfg) (Base hdrFilename) tmpDir).trace ++
              [Effect.removeAll tmpDir, Effect.closeUpload]),
          (workspaceStage cfg env (maxBytesOf cfg) (Base hdrFilename) tmpDir).outcome⟩ := by
  obtain ⟨hm, hp, hdr, hf, hb, hs, ht⟩ := h
  refine ⟨hdr, hf, ?_⟩
  simp [compileHandler, uploadStage, withDefer, hm, hp, hf, hb, hs, ht, maxBytesOf]

theorem workspaceStage_of_extracted (cfg : Config) (env : Env) (tmpDir filename : GoString)
    (hc : env.create = none) (hu : env.copyUpload = none)
    (hz : (unzipSecure env.archive tmpDir (maxBytesOf cfg)).outcome = .ok) :
    workspaceStage cfg env (maxBytesOf cfg) filename tmpDir =
      match env.statTex with
      | some _ =>
        ⟨Effect.create (Join tmpDir filename) ::
            (unzipSecure env.archive tmpDir (maxBytesOf cfg)).trace,
          .responded (.json StatusBadRequest
            ⟨"No ".toList ++ cfg.texFilename ++ " found in the ZIP file".toList, []⟩)⟩
      | none =>
        ⟨Effect.create (Join tmpDir filename) ::
            ((unzipSecure env.archive tmpDir (maxBytesOf cfg)).trace ++
            ((compileStage env tmpDir (Join tmpDir cfg.texFilename) (pdfName cfg.texFilename)
              (Join tmpDir (pdfName cfg.texFilename))).trace ++ [Effect.cancel])),
          (compileStage env tmpDir (Join tmpDir cfg.texFilename) (pdfName cfg.texFilename)
              (Join tmpDir (pdfName cfg.texFilename))).outcome⟩ := by
  simp only [workspaceStage, saveUploaded, hc, hu, hz, withDefer]
  cases env.statTex <;> simp

/-- The compile stage, by the answers of the compiler. -/
theorem compileStage_calls (env : Env) (tmpDir texPath name pdfPath : GoString) :
    ((env.pdflatex 0 tmpDir texPath).2 ≠ none →
      pdflatexCalls (compileStage env tmpDir texPath name pdfPath).trace = [(tmpDir, texPath)] ∧
      ∃ details, tail (env.pdflatex 0 tmpDir texPath).1 detailsCap = some details ∧
        (compileStage env tmpDir texPath name pdfPath).outcome =
          .responded (.json StatusInternalServerError
            ⟨"LaTeX compilation failed".toList, details⟩)) ∧
    ((env.pdflatex 0 tmpDir texPath).2 = none →
      pdflatexCalls (compileStage env tmpDir texPath name pdfPath).trace =
          [(tmpDir, texPath), (tmpDir, texPath)] ∧
      ((env.pdflatex 1 tmpDir texPath).2 ≠ none →
        ∃ details, tail (env.pdflatex 1 tmpDir texPath).1 detailsCap = some details ∧
          (compileStage env tmpDir texPath name pdfPath).outcome =
            .responded (.json StatusInternalServerError
              ⟨"LaTeX compilation failed (2nd pass)".toList, details⟩))) := by
  unfold compileStage runPdflatex
  constructor
  · intro h
    obtain ⟨t, ht, -, -⟩ := tail_spec (env.pdflatex 0 tmpDir texPath).1 detailsCap (by decide)
    rcases h0 : env.pdflatex 0 tmpDir texPath with ⟨out, err⟩
    rw [h0] at h ht
    cases err with
    | none => simp at h
    | some e =>
      simp only at ht
      simp [ht, pdflatexCalls]
  · intro h
    rcases h0 : env.pdflatex 0 tmpDir texPath with ⟨out, err⟩
    rw [h0] at h
    simp only at h
    subst h
    simp only
    obtain ⟨t, ht, -, -⟩ := tail_spec (env.pdflatex 1 tmpDir texPath).1 detailsCap (by decide)
    rcases h1 : env.pdflatex 1 tmpDir texPath with ⟨out1, err1⟩
    rw [h1] at ht
    cases err1 with
    | some e =>
      simp only at ht
      simp [ht, pdflatexCalls]
    | none =>
      simp only
      cases env.openPdf with
      | some e => simp [pdflatexCalls]
      | none => cases env.statPdf <;> simp [pdflatexCalls, withDefer, pdflatexCalls_append]

theorem compileHandler_cases (cfg : Config) (env : Env) :
    (∃ tmpDir, CompilerReached cfg env tmpDir) ∨ NotCompiled (compileHandler cfg env) := by
  by_cases hm : env.Method = "POST".toList
  swap
  · right
    simp only [compileHandler, ne_eq, hm, not_false_eq_true, if_true, failWith, NotCompiled]
    refine ⟨rfl, ?_, by simp⟩
    intro code v h
    simp only [HandlerOutcome.responded.injEq, Response.json.injEq] at h
    rw [← h.2]
    decide
  cases hp : env.parseMultipartForm with
  | some err =>
    right
    simp only [compileHandler, ne_eq, hm, not_true_eq_false, if_false, hp, failWithDetails,
      NotCompiled]
    refine ⟨rfl, ?_, by simp⟩
    intro code v h
    simp only [HandlerOutcome.responded.injEq, Response.json.injEq] at h
    rw [← h.2]
    exact (by decide : ("Failed to parse multipart form".toList).head? ≠ some 'L')
  | none =>
    cases hf : env.formFile with
    | error err =>
      right
      simp only [compileHandler, ne_eq, hm, not_true_eq_false, if_false, hp, hf, failWith,
        NotCompiled]
      refine ⟨rfl, ?_, by simp⟩
      intro code v h
      simp only [HandlerOutcome.responded.injEq, Response.json.injEq] at h
      rw [← h.2]
      show (('N' :: 'o' :: ' ' :: env.Quote cfg.formFieldName) ++ _).head? ≠ some 'L'
      simp
    | ok hdr =>
      by_cases hb : Base hdr = [] ∨ (!HasSuffix (env.ToLower (Base hdr)) expectedZipSuffix) = true
      · right
        simp only [compileHandler, ne_eq, hm, not_true_eq_false, if_false, hp, hf, uploadStage,
          hb, if_true, failWith, withDefer, NotCompiled]
        refine ⟨rfl, ?_, by simp⟩
        intro code v h
        simp only [HandlerOutcome.responded.injEq, Response.json.injEq] at h
        rw [← h.2]
        decide
      · cases ht : env.mkdirTemp with
        | error err =>
          right
          simp only [compileHandler, ne_eq, hm, not_true_eq_false, if_false, hp, hf, uploadStage,
            hb, ht, failWith, withDefer, NotCompiled]
          refine ⟨rfl, ?_, by simp⟩
          intro code v h
          simp only [HandlerOutcome.responded.injEq, Response.json.injEq] at h
          rw [← h.2]
          decide
        | ok tmpDir =>
          have hw : WorkspaceCreated cfg env tmpDir := by
            rw [not_or] at hb
            exact ⟨hm, hp, hdr, hf, hb.1, by simpa using hb.2, ht⟩
          obtain ⟨hdr2, hf2, hrun⟩ := compileHandler_of_workspace cfg env tmpDir hw
          rw [hf] at hf2
          cases hf2
          rw [hrun]
          cases hc : env.create with
          | some err =>
            right
            simp only [workspaceStage, saveUploaded, hc, NotCompiled]
            refine ⟨by simp [pdflatexCalls], ?_, by simp⟩
            intro code v h
            simp only [HandlerOutcome.responded.injEq, Response.json.injEq] at h
            rw [← h.2]
            exact (by decide : ("Failed to save upload".toList).head? ≠ some 'L')
          | none =>
            cases hu : env.copyUpload with
            | some err =>
              right
              simp only [workspaceStage, saveUploaded, hc, hu, NotCompiled]
              refine ⟨by simp [pdflatexCalls], ?_, by simp⟩
              intro code v h
              simp only [HandlerOutcome.responded.injEq, Response.json.injEq] at h
              rw [← h.2]
              exact (by decide : ("Failed to save upload".toList).head? ≠ some 'L')
            | none =>
              have hpz := pdflatexCalls_unzipSecure env.archive tmpDir (maxBytesOf cfg)
              cases hz : (unzipSecure env.archive tmpDir (maxBytesOf cfg)).outcome with
              | panic err =>
                right
                simp only [workspaceStage, saveUploaded, hc, hu, hz, NotCompiled]
                refine ⟨by simp [pdflatexCalls, pdflatexCalls_append, hpz], by simp, by simp⟩
              | error err =>
                right
                simp only [workspaceStage, saveUploaded, hc, hu, hz, NotCompiled]
                refine ⟨by simp [pdflatexCalls, pdflatexCalls_append, hpz], ?_, by simp⟩
                intro code v h
                simp only [HandlerOutcome.responded.injEq, Response.json.injEq] at h
                rw [← h.2]
                exact (by decide : ("Invalid ZIP file".toList).head? ≠ some 'L')
              | ok =>
                cases hs : env.statTex with
                | none => exact Or.inl ⟨tmpDir, ⟨hw, hc, hu, hz⟩, hs⟩
                | some err =>
                  right
                  rw [workspaceStage_of_extracted cfg env tmpDir _ hc hu hz, hs]
                  simp only [NotCompiled]
                  refine ⟨by simp [pdflatexCalls, pdflatexCalls_append, hpz], ?_, by simp⟩
                  intro code v h
                  simp only [HandlerOutcome.responded.injEq, Response.json.injEq] at h
                  rw [← h.2]
                  show (('N' :: 'o' :: ' ' :: cfg.texFilename) ++ _).head? ≠ some 'L'
                  simp

/-- A request that reached the compiler: the handler is the compile stage, preceded by
effects without compiler run and followed by the deferred calls. -/
theorem compileHandler_of_reached (cfg : Config) (env : Env) (tmpDir : GoString)
    (h : CompilerReached cfg env tmpDir) :
    ∃ before,
      pdflatexCalls before = [] ∧
      (compileHandler cfg env).trace =
        before ++
          (compileStage env tmpDir (Join tmpDir cfg.texFilename) (pdfName cfg.texFilename)
            (Join tmpDir (pdfName cfg.texFilename))).trace ++
          [Effect.cancel, Effect.removeAll tmpDir, Effect.closeUpload] ∧
      (compileHandler cfg env).outcome =
        (compileStage env tmpDir (Join tmpDir cfg.texFilename) (pdfName cfg.texFilename)
          (Join tmpDir (pdfName cfg.texFilename))).outcome := by
  obtain ⟨⟨hw, hc, hu, hz⟩, hs⟩ := h
  obtain ⟨hdr, -, hrun⟩ := compileHandler_of_workspace cfg env tmpDir hw
  rw [hrun, workspaceStage_of_extracted cfg env tmpDir _ hc hu hz, hs]
  refine ⟨Effect.mkdirTemp tmpDir :: Effect.create (Join tmpDir (Base hdr)) ::
    (unzipSecure env.archive tmpDir (maxBytesOf cfg)).trace, ?_, ?_, rfl⟩
  · simp [pdflatexCalls, pdflatexCalls_unzipSecure]
  · simp

/-- The ways the compile stage can end. -/
theorem compileStage_outcome (env : Env) (tmpDir texPath name pdfPath : GoString) :
    (∃ details, tail (env.pdflatex 0 tmpDir texPath).1 detailsCap = some details ∧
      (compileStage env tmpDir texPath name pdfPath).outcome =
        .responded (.json StatusInternalServerError
          ⟨"LaTeX compilation failed".toList, details⟩)) ∨
    (∃ details, tail (env.pdflatex 1 tmpDir texPath).1 detailsCap = some details ∧
      (compileStage env tmpDir texPath name pdfPath).outcome =
        .responded (.json StatusInternalServerError
          ⟨"LaTeX compilation failed (2nd pass)".toList, details⟩)) ∨
    (compileStage env tmpDir texPath name pdfPath).outcome =
      .responded (.json StatusInternalServerError ⟨"PDF not generated".toList, []⟩) ∨
    (compileStage env tmpDir texPath name pdfPath).outcome = .responded (.pdf name pdfPath) ∨
    (compileStage env tmpDir texPath name pdfPath).outcome =
      .panicked "nil pointer dereference".toList := by
  obtain ⟨h1, h2⟩ := compileStage_calls env tmpDir texPath name pdfPath
  by_cases h0 : (env.pdflatex 0 tmpDir texPath).2 = none
  swap
  · obtain ⟨-, details, hd, ho⟩ := h1 h0
    exact Or.inl ⟨details, hd, ho⟩
  by_cases h1' : (env.pdflatex 1 tmpDir texPath).2 = none
  swap
  · obtain ⟨details, hd, ho⟩ := (h2 h0).2 h1'
    exact Or.inr (Or.inl ⟨details, hd, ho⟩)
  right; right
  unfold compileStage runPdflatex
  rcases hp0 : env.pdflatex 0 tmpDir texPath with ⟨out0, err0⟩
  rw [hp0] at h0
  simp only at h0
  subst h0
  rcases hp1 : env.pdflatex 1 tmpDir texPath with ⟨out1, err1⟩
  rw [hp1] at h1'
  simp only at h1'
  subst h1'
  simp only
  cases env.openPdf with
  | some e => simp
  | none => cases env.statPdf <;> simp [withDefer]

theorem tail_length_le (s t : GoString) (h : tail s detailsCap = some t) :
    t <:+ s ∧ t.length ≤ 8192 := by
  obtain ⟨t2, ht, hs, hl⟩ := tail_spec s detailsCap (by decide)
  rw [h] at ht
  cases ht
  refine ⟨hs, ?_⟩
  have : detailsCap = 8192 := by decide
  rw [this] at hl
  omega

theorem ownPaths_sound : RemovalSound ownPaths := by
  constructor
  · intro dir fs p hp
    simp only [ownPaths, List.mem_filter, Bool.not_eq_true'] at hp
    exact hp.2
  · intro fs
    rfl

/-- The model of `filepath.Clean` on the cases of the table `cleantests` of Go's
`path/filepath` tests (Unix part). -/
theorem Clean_agrees_with_go_tests :
    ([("abc", "abc"), ("abc/def", "abc/def"), ("a/b/c", "a/b/c"), (".", "."), ("..", ".."),
      ("../..", "../.."), ("../../abc", "../../abc"), ("/abc", "/abc"), ("/", "/"),
      ("", "."), ("abc/", "abc"), ("abc/def/", "abc/def"), ("a/b/c/", "a/b/c"), ("./", "."),
      ("../", ".."), ("../../", "../.."), ("/abc/", "/abc"),
      ("abc//def//ghi", "abc/def/ghi"), ("abc//", "abc"), ("abc/./def", "abc/def"),
      ("/./abc/def", "/abc/def"), ("abc/.", "abc"), ("abc/def/ghi/../jkl", "abc/def/jkl"),
      ("abc/def/../ghi/../jkl", "abc/jkl"), ("abc/def/..", "abc"), ("abc/def/../..", "."),
      ("/abc/def/../..", "/"), ("abc/def/../../..", ".."), ("/abc/def/../../..", "/"),
      ("abc/def/../../../ghi/jkl/../../../mno", "../../mno"), ("/../abc", "/abc"),
      ("abc/./../def", "def"), ("abc//./../def", "def"),
      ("abc/../../././../def", "../../def"), ("//abc", "/abc"), ("///abc", "/abc"),
      ("//abc//", "/abc")] : List (String × String)).all
      (fun t => Clean t.1.toList == t.2.toList) = true := by
  decide

/-- The models of `filepath.Join`, `filepath.Dir`, `filepath.Base` and `filepath.Ext` on
cases of the documentation of `path/filepath`. -/
theorem path_functions_agree_with_go_docs :
    Join "a/b".toList "../../../xyz".toList = "../xyz".toList ∧
    Join "a".toList "b/c".toList = "a/b/c".toList ∧
    Join [] "a".toList = "a".toList ∧ Join [] [] = [] ∧
    Join "/tmp/latex-1".toList "/etc/passwd".toList = "/tmp/latex-1/etc/passwd".toList ∧
    Dir "/foo/bar/baz.js".toList = "/foo/bar".toList ∧
    Dir "/foo/bar/baz/".toList = "/foo/bar/baz".toList ∧
    Dir "dev.txt".toList = ".".toList ∧ Dir "../todo.txt".toList = "..".toList ∧
    Dir "/".toList = "/".toList ∧ Dir [] = ".".toList ∧
    Base "/foo/bar/baz.js".toList = "baz.js".toList ∧
    Base "/foo/bar/baz/".toList = "baz".toList ∧ Base "dev.txt".toList = "dev.txt".toList ∧
    Base "/".toList = "/".toList ∧ Base [] = ".".toList ∧
    Ext "index".toList = [] ∧ Ext "index.js".toList = ".js".toList ∧
    Ext "main.test.js".toList = ".js".toList ∧ Ext "a.b/c".toList = [] := by
  decide

/-- The running counter wraps around: an entry that declares `2^63` bytes makes it
negative, and the size check passes. -/
theorem bomb_guard_wraps_around :
    sampleLimit * 5 < declaredSum [regularEntry "big.bin".toList (2 ^ 63)] ∧
    (unzipEntry sampleDest sampleLimit 0 (regularEntry "big.bin".toList (2 ^ 63))).2 =
      .next (-(2 ^ 63)) ∧
    (unzipSecure (.ok [regularEntry "big.bin".toList (2 ^ 63)]) sampleDest
      sampleLimit).outcome = .ok := by
  decide

theorem joinElems_cons_head (c : Char) (e : GoString) (es : List GoString) :
    joinElems ((c :: e) :: es) = c :: joinElems (e :: es) := by
  cases es <;> rfl

/-- Splitting a path into its elements loses nothing. -/
theorem joinElems_splitSep (s : GoString) : joinElems (splitSep s) = s := by
  induction s with
  | nil => rfl
  | cons c cs ih =>
    simp only [splitSep]
    split
    · rename_i hc
      cases h : splitSep cs with
      | nil => exact absurd h (splitSep_ne_nil cs)
      | cons e es =>
        rw [h] at ih
        rw [joinElems_cons_cons, ih, hc]
        rfl
    · cases h : splitSep cs with
      | nil => exact absurd h (splitSep_ne_nil cs)
      | cons e es =>
        rw [h] at ih
        simp only
        rw [joinElems_cons_head, ih]

/-- A string is a part without separator, alone or after a part that ends in one. -/
theorem last_sep_split (r : GoString) :
    ∃ b, Separator ∉ b ∧ (r = b ∨ ∃ a, r = a ++ Separator :: b) := by
  induction r with
  | nil => exact ⟨[], by simp, Or.inl rfl⟩
  | cons c cs ih =>
    obtain ⟨b, hb, h | ⟨a, h⟩⟩ := ih
    · by_cases hc : c = Separator
      · exact ⟨b, hb, Or.inr ⟨[], by simp [h, hc]⟩⟩
      · refine ⟨c :: b, ?_, Or.inl (by rw [h])⟩
        simp only [List.mem_cons, not_or]
        exact ⟨fun hh => hc hh.symm, hb⟩
    · exact ⟨b, hb, Or.inr ⟨c :: a, by simp [h]⟩⟩

theorem dropLastElemRev_append (b rest : GoString) (hb : Separator ∉ b) :
    dropLastElemRev (b ++ Separator :: rest) = Separator :: rest := by
  induction b with
  | nil => simp [dropLastElemRev]
  | cons c cs ih =>
    simp only [List.mem_cons, not_or] at hb
    have ih2 : dropLastElemRev (cs.append (Separator :: rest)) = Separator :: rest := ih hb.2
    simp only [List.cons_append, dropLastElemRev]
    rw [if_neg (fun h => hb.1 h.symm)]
    exact ih2

/-- The argument `filepath.Dir` hands to `filepath.Clean`. -/
theorem Dir_of_split (x b : GoString) (hb : Separator ∉ b) :
    Dir (x ++ Separator :: b) = Clean (x ++ [Separator]) := by
  unfold Dir
  congr 1
  have h : (x ++ Separator :: b).reverse = b.reverse ++ Separator :: x.reverse := by simp
  rw [h, dropLastElemRev_append _ _ (by simpa using hb)]
  simp

theorem cleanStep_dotdot_dots (j : Nat) :
    cleanStep false (List.replicate j ['.', '.']) ['.', '.'] =
      List.replicate (j + 1) ['.', '.'] := by
  cases j with
  | zero => simp [cleanStep]
  | succ n => simp [cleanStep, List.replicate_succ]

theorem foldl_cleanStep_dots (k j : Nat) :
    (List.replicate k ['.', '.']).foldl (cleanStep false) (List.replicate j ['.', '.']) =
      List.replicate (j + k) ['.', '.'] := by
  induction k generalizing j with
  | zero => simp
  | succ n ih =>
    rw [List.replicate_succ, List.foldl_cons, cleanStep_dotdot_dots, ih]
    congr 1
    omega

/-- Cleaning leaves a run of `..` elements followed by real elements as it is. -/
theorem foldl_cleanStep_dots_reals (k : Nat) (reals : List GoString)
    (hr : ∀ e ∈ reals, RealElem e) :
    (List.replicate k ['.', '.'] ++ reals).foldl (cleanStep false) [] =
      (List.replicate k ['.', '.'] ++ reals).reverse := by
  rw [List.foldl_append]
  have h := foldl_cleanStep_dots k 0
  simp only [List.replicate_zero, zero_add] at h
  rw [h, foldl_cleanStep_real false reals _ hr]
  simp

/-- All but the last of a run of `..` elements followed by real elements is such a run. -/
theorem dots_reals_init (k : Nat) (reals init : List GoString) (b : GoString)
    (hr : ∀ e ∈ reals, RealElem e)
    (h : List.replicate k ['.', '.'] ++ reals = init ++ [b]) :
    ∃ k2 reals2, (∀ e ∈ reals2, RealElem e) ∧ init = List.replicate k2 ['.', '.'] ++ reals2 := by
  rcases List.eq_nil_or_concat reals with hnil | ⟨front, last, hcat⟩
  · subst hnil
    cases k with
    | zero => simp at h
    | succ n =>
      refine ⟨n, [], by simp, ?_⟩
      have h2 : List.replicate (n + 1) ['.', '.'] = List.replicate n ['.', '.'] ++ [['.', '.']] :=
        List.replicate_succ' ..
      rw [List.append_nil, h2] at h
      have := List.append_inj_left' h rfl
      simp [this]
  · subst hcat
    refine ⟨k, front, fun e he => hr e (by simp [he]), ?_⟩
    have h2 : (List.replicate k ['.', '.'] ++ front) ++ [last] = init ++ [b] := by
      rw [← h]
      simp
    exact (List.append_inj_left' h2 rfl).symm

theorem Clean_relative (s : GoString) (hne : s ≠ []) (hrel : HasPrefix s [Separator] = false) :
    Clean s =
      if ((splitSep s).foldl (cleanStep false) []).reverse = [] then ['.']
      else joinElems ((splitSep s).foldl (cleanStep false) []).reverse := by
  simp [Clean, hne, hrel]

/-- The shape of every cleaned path. -/
theorem Clean_shape_all (y : GoString) :
    Clean y = ['.'] ∨
      (∃ es, (∀ e ∈ es, RealElem e) ∧ Clean y = Separator :: joinElems es) ∨
      ∃ k reals, (∀ e ∈ reals, RealElem e) ∧ List.replicate k ['.', '.'] ++ reals ≠ [] ∧
        Clean y = joinElems (List.replicate k ['.', '.'] ++ reals) := by
  by_cases hn : y = []
  · left; simp [Clean, hn]
  by_cases hr : HasPrefix y [Separator] = true
  · right; left
    cases y with
    | nil => exact absurd rfl hn
    | cons c rest =>
      have hc : c = Separator := by
        simp [HasPrefix] at hr
        exact hr.symm
      subst hc
      refine ⟨_, ?_, Clean_rooted rest⟩
      intro e he
      rw [List.mem_reverse] at he
      exact foldl_cleanStep_rooted _ [] (splitSep_no_sep rest) (by simp) e he
  · simp only [Bool.not_eq_true] at hr
    rw [Clean_relative y hn hr]
    obtain ⟨reals, k, hst, hreal⟩ :=
      foldl_cleanStep_relStack (splitSep y) [] (splitSep_no_sep y) ⟨[], 0, rfl, by simp⟩
    rw [hst]
    have hrev : (reals ++ List.replicate k ['.', '.']).reverse =
        List.replicate k ['.', '.'] ++ reals.reverse := by
      rw [List.reverse_append, List.reverse_replicate]
    rw [hrev]
    by_cases he : List.replicate k ['.', '.'] ++ reals.reverse = []
    · left; simp [he]
    · right; right
      refine ⟨k, reals.reverse, fun e h => hreal e (List.mem_reverse.mp h), he, ?_⟩
      simp [he]

theorem realElem_ne_nil (e : GoString) (h : RealElem e) : e ≠ [] := h.1

theorem dots_reals_ne_nil (k : Nat) (reals : List GoString) (hr : ∀ e ∈ reals, RealElem e) :
    ∀ e ∈ List.replicate k ['.', '.'] ++ reals, e ≠ [] ∧ Separator ∉ e := by
  intro e he
  rw [List.mem_append] at he
  rcases he with he | he
  · rw [List.eq_of_mem_replicate he]
    exact ⟨by simp, by decide⟩
  · exact ⟨(hr e he).1, (hr e he).2.2.2⟩

/-- Cutting a cleaned path before its last element and cleaning again only removes
the separator at the cut. -/
theorem Clean_before_last (y x b : GoString) (h : Clean y = x ++ Separator :: b)
    (hb : Separator ∉ b) :
    Clean (x ++ [Separator]) = if x = [] then [Separator] else x := by
  by_cases hx : x = []
  · subst hx
    simp only [List.nil_append, if_true]
    decide
  simp only [hx, if_false]
  rcases Clean_shape_all y with hdot | ⟨es, hes, hc⟩ | ⟨k, reals, hr, hne, hc⟩
  · -- the path `.` has no separator
    rw [hdot] at h
    have : Separator ∈ ['.'] := by rw [h]; simp
    exact absurd this (by decide)
  · -- a rooted path
    rw [hc] at h
    cases x with
    | nil => exact absurd rfl hx
    | cons c x2 =>
      simp only [List.cons_append, List.cons.injEq] at h
      obtain ⟨hc2, hrest⟩ := h
      subst hc2
      have hesne : es ≠ [] := by
        intro he
        rw [he] at hrest
        simp [joinElems] at hrest
      have hsplit : es = splitSep x2 ++ [b] := by
        have h1 := splitSep_joinElems es hesne (fun e he => (hes e he).2.2.2)
        rw [hrest, splitSep_append_sep, splitSep_of_no_sep b hb] at h1
        exact h1.symm
      have hreal : ∀ e ∈ splitSep x2, RealElem e := by
        intro e he
        exact hes e (by rw [hsplit]; simp [he])
      rw [List.cons_append, Clean_rooted, splitSep_append_sep, List.foldl_append,
        foldl_cleanStep_real true (splitSep x2) [] hreal]
      simp [splitSep, cleanStep_empty, joinElems_splitSep]
  · -- a path that is not rooted
    rw [hc] at h
    have hall := dots_reals_ne_nil k reals hr
    have hsplit : List.replicate k ['.', '.'] ++ reals = splitSep x ++ [b] := by
      have h1 := splitSep_joinElems _ hne (fun e he => (hall e he).2)
      rw [h, splitSep_append_sep, splitSep_of_no_sep b hb] at h1
      exact h1.symm
    obtain ⟨k2, reals2, hr2, hinit⟩ := dots_reals_init k reals (splitSep x) b hr hsplit
    have hne2 : List.replicate k2 ['.', '.'] ++ reals2 ≠ [] := by
      rw [← hinit]
      exact splitSep_ne_nil x
    have hrel : HasPrefix (x ++ [Separator]) [Separator] = false := by
      cases x with
      | nil => exact absurd rfl hx
      | cons c x2 =>
        by_cases hcs : c = Separator
        · exfalso
          have hmem : ([] : GoString) ∈ List.replicate k ['.', '.'] ++ reals := by
            rw [hsplit, hcs]
            simp [splitSep]
          exact (hall [] hmem).1 rfl
        · simp only [HasPrefix, List.cons_append, List.isPrefixOf, Bool.and_true,
            beq_eq_false_iff_ne, ne_eq]
          exact fun hh => hcs hh.symm
    rw [Clean_relative _ (by simp) hrel, splitSep_append_sep, List.foldl_append, hinit,
      foldl_cleanStep_dots_reals k2 reals2 hr2]
    simp only [splitSep, List.foldl_cons, List.foldl_nil, cleanStep_empty,
      List.reverse_reverse, hne2, if_false]
    rw [← hinit, joinElems_splitSep]

/-- The directory part of a cleaned path that lies beneath `dest` is `dest` or lies
beneath it. -/
theorem Dir_within (dest y : GoString) (h : (dest ++ [Separator]) <+: Clean y) :
    withinDest dest (Dir (Clean y)) = true := by
  obtain ⟨r, hr⟩ := h
  obtain ⟨b, hb, hcase | ⟨a, hcase⟩⟩ := last_sep_split r
  · -- the last element follows `dest` directly
    subst hcase
    have hp : Clean y = dest ++ Separator :: r := by rw [← hr]; simp
    rw [hp, Dir_of_split dest r hb, Clean_before_last y dest r hp hb]
    by_cases hd : dest = []
    · subst hd
      decide
    · simp [hd, withinDest]
  · subst hcase
    have hp : Clean y = (dest ++ Separator :: a) ++ Separator :: b := by rw [← hr]; simp
    rw [hp, Dir_of_split _ b hb, Clean_before_last y _ b hp hb]
    have hne : dest ++ Separator :: a ≠ [] := by simp
    simp only [hne, if_false, withinDest, HasPrefix, Bool.or_eq_true]
    left
    rw [List.isPrefixOf_iff_prefix]
    exact ⟨a, by simp⟩

theorem Clean_ne_nil (y : GoString) : Clean y ≠ [] := by
  rcases Clean_shape_all y with h | ⟨es, -, h⟩ | ⟨k, reals, hr, hne, h⟩
  · rw [h]; simp
  · rw [h]; simp
  · rw [h]
    intro hnil
    have hall := dots_reals_ne_nil k reals hr
    cases hl : List.replicate k ['.', '.'] ++ reals with
    | nil => exact hne hl
    | cons e rest =>
      rw [hl] at hnil
      have he := (hall e (by rw [hl]; simp)).1
      cases rest with
      | nil => exact he hnil
      | cons e2 rest2 =>
        rw [joinElems_cons_cons] at hnil
        simp at hnil

/-- A joined target path is a cleaned path. -/
theorem Join_Clean_eq (dest name : GoString) : ∃ y, Join dest (Clean name) = Clean y := by
  unfold Join
  by_cases hd : dest = []
  · simp only [hd, ne_eq, not_true_eq_false, if_false, Clean_ne_nil name, not_false_eq_true,
      if_true]
    exact ⟨Clean name, rfl⟩
  · simp only [ne_eq, hd, not_false_eq_true, if_true]
    exact ⟨_, rfl⟩

/-- Every parent directory the loop asks `os.MkdirAll` to ensure is `dest`, lies beneath
it, or is the directory part of `dest`; the last when the target of the entry is `dest`. -/
theorem unzipLoop_parents_within (dest : GoString) (sizeLimit total : Int)
    (files : List ZipFile) (q : GoString)
    (hq : q ∈ parentPaths (unzipLoop dest sizeLimit total files).trace) :
    withinDest dest q = true ∨ q = Dir dest := by
  rw [mem_parentPaths] at hq
  obtain ⟨zf, _, t, het⟩ := unzipLoop_effects dest sizeLimit total files _ hq
  obtain ⟨hw, hcases⟩ := unzipEntry_effects dest sizeLimit t zf _ het
  have hqd : q = Dir (Join dest (Clean zf.Name)) := by simpa using hcases
  rw [withinDest_iff] at hw
  rcases hw with hw | hw
  · right
    rw [hqd, hw]
  · left
    obtain ⟨y, hy⟩ := Join_Clean_eq dest zf.Name
    rw [hqd, hy]
    rw [hy] at hw
    exact Dir_within dest y hw

/-- Within the budget and past the name check, an iteration that leaves the function
does so by the containment test, by a returned error of a system call, or by a panic. -/
theorem unzipEntry_leave_kinds (dest : GoString) (limit total : Int) (zf : ZipFile)
    (h : wrap64 (total + wrap64 zf.UncompressedSize64) ≤ wrap64 (limit * 5))
    (hr : nameRejected zf.Name = false) :
    ∀ o, (unzipEntry dest limit total zf).2 = .leave o →
      o = .error (.zipSlip zf.Name) ∨ (∃ e, o = .error (.os e)) ∨ ∃ e, o = .panic e := by
  have h2 : ¬ wrap64 (limit * 5) < wrap64 (total + wrap64 zf.UncompressedSize64) := not_lt.mpr h
  unfold nameRejected at hr
  unfold unzipEntry
  simp only [gt_iff_lt, h2, if_false, hr, Bool.false_eq_true]
  intro o
  split
  · simp
    intro ho
    exact Or.inl ho.symm
  · split
    · split <;> simp
      intro ho
      exact Or.inr (Or.inl ⟨_, ho.symm⟩)
    · split
      · simp
        intro ho
        exact Or.inr (Or.inl ⟨_, ho.symm⟩)
      · split
        · simp
          intro ho
          exact Or.inr (Or.inl ⟨_, ho.symm⟩)
        · split <;> simp
          intro ho
          exact Or.inr (Or.inr ⟨_, ho.symm⟩)

/-- The name check, entry by entry: the loop stops at the first entry whose name is
rejected, having done exactly what it does on the entries before it. -/
theorem unzipLoop_first_rejected (dest : GoString) (limit : Int) (files : List ZipFile)
    (total : Int) (hb : withinBudget limit total files = true)
    (hbad : ∃ zf ∈ files, nameRejected zf.Name = true) :
    ∃ k zf, files[k]? = some zf ∧ nameRejected zf.Name = true ∧
      (∀ z ∈ files.take k, nameRejected z.Name = false) ∧
      (unzipLoop dest limit total files).trace =
        (unzipLoop dest limit total (files.take k)).trace ∧
      ((unzipLoop dest limit total (files.take k)).outcome = .ok →
        (unzipLoop dest limit total files).outcome = .error (.suspiciousPath zf.Name)) ∧
      ((unzipLoop dest limit total (files.take k)).outcome ≠ .ok →
        (unzipLoop dest limit total files).outcome =
          (unzipLoop dest limit total (files.take k)).outcome ∧
        ((∃ z ∈ files.take k,
            (unzipLoop dest limit total files).outcome = .error (.zipSlip z.Name)) ∨
          (∃ e, (unzipLoop dest limit total files).outcome = .error (.os e)) ∨
          ∃ e, (unzipLoop dest limit total files).outcome = .panic e)) := by
  induction files generalizing total with
  | nil => simp at hbad
  | cons zf rest ih =>
    simp only [withinBudget, Bool.and_eq_true, decide_eq_true_eq] at hb
    obtain ⟨hb1, hb2⟩ := hb
    by_cases hr : nameRejected zf.Name = true
    · refine ⟨0, zf, by simp, hr, by simp, ?_, ?_, ?_⟩
      · rw [unzipLoop_cons, unzipEntry_rejected dest limit total zf hb1 hr]
        simp [unzipLoop]
      · intro _
        rw [unzipLoop_cons, unzipEntry_rejected dest limit total zf hb1 hr]
      · intro h
        simp [unzipLoop] at h
    · simp only [Bool.not_eq_true] at hr
      have hbad2 : ∃ zf ∈ rest, nameRejected zf.Name = true := by
        obtain ⟨z, hz, hzr⟩ := hbad
        simp only [List.mem_cons] at hz
        rcases hz with rfl | hz
        · rw [hr] at hzr; exact absurd hzr (by simp)
        · exact ⟨z, hz, hzr⟩
      obtain ⟨k, zk, hk, hkr, hfirst, htr, hok, hnok⟩ := ih _ hb2 hbad2
      obtain ⟨hnext, hleave⟩ := unzipEntry_step dest limit total zf
      have hkinds := unzipEntry_leave_kinds dest limit total zf hb1 hr
      have hcons : ∀ fs : List ZipFile, unzipLoop dest limit total (zf :: fs) =
          match (unzipEntry dest limit total zf).2 with
          | .leave outcome => ⟨(unzipEntry dest limit total zf).1, outcome⟩
          | .next t =>
            ⟨(unzipEntry dest limit total zf).1 ++ (unzipLoop dest limit t fs).trace,
              (unzipLoop dest limit t fs).outcome⟩ := fun fs => unzipLoop_cons dest limit total zf fs
      refine ⟨k + 1, zk, by simpa using hk, hkr, ?_, ?_, ?_, ?_⟩
      · intro z hz
        simp only [List.take_succ_cons, List.mem_cons] at hz
        rcases hz with rfl | hz
        · exact hr
        · exact hfirst z hz
      · rw [List.take_succ_cons, hcons rest, hcons (rest.take k)]
        cases hstep : (unzipEntry dest limit total zf).2 with
        | leave o => rfl
        | next t =>
          obtain ⟨ht, -, -⟩ := hnext t hstep
          subst ht
          show _ ++ _ = _ ++ _
          rw [htr]
      · rw [List.take_succ_cons, hcons rest, hcons (rest.take k)]
        cases hstep : (unzipEntry dest limit total zf).2 with
        | leave o =>
          intro hcontra
          exact absurd hcontra (hleave o hstep)
        | next t =>
          obtain ⟨ht, -, -⟩ := hnext t hstep
          subst ht
          exact hok
      · rw [List.take_succ_cons, hcons rest, hcons (rest.take k)]
        cases hstep : (unzipEntry dest limit total zf).2 with
        | leave o =>
          intro _
          refine ⟨rfl, ?_⟩
          rcases hkinds o hstep with ho | ho | ho
          · exact Or.inl ⟨zf, List.mem_cons_self _ _, ho⟩
          · exact Or.inr (Or.inl ho)
          · exact Or.inr (Or.inr ho)
        | next t =>
          obtain ⟨ht, -, -⟩ := hnext t hstep
          subst ht
          intro hpre
          obtain ⟨h1, h2⟩ := hnok hpre
          refine ⟨h1, ?_⟩
          rcases h2 with ⟨z, hz, ho⟩ | ho | ho
          · exact Or.inl ⟨z, List.mem_cons_of_mem _ hz, ho⟩
          · exact Or.inr (Or.inl ho)
          · exact Or.inr (Or.inr ho)

/-! ## The claims -/

/-- C1: every path `unzipSecure` creates or writes (the directory made for a directory
entry, the file opened for and copied into for a regular entry) is `dest` itself or starts
with `dest` followed by the separator, whatever the archive, the destination and the size
limit are and however the call ends. -/
theorem unzipSecure_writes_within_dest (archive : Except OsError (List ZipFile))
    (dest : GoString) (sizeLimit : Int) (p : GoString)
    (hp : p ∈ writtenPaths (unzipSecure archive dest sizeLimit).trace) :
    p = dest ∨ (dest ++ [Separator]) <+: p := by
  rw [← withinDest_iff]
  cases archive with
  | error err =>
    -- the archive could not be opened: nothing was written
    simp [unzipSecure, writtenPaths] at hp
  | ok files =>
    have hloop : p ∈ writtenPaths (unzipLoop dest sizeLimit 0 files).trace := hp
    exact unzipLoop_written_within dest sizeLimit 0 files p hloop

/-- The sample archive writes `figs/plot.png` beneath the workspace. -/
theorem unzipSecure_writes_within_dest_witness :
    "/tmp/latex-1/figs/plot.png".toList = sampleDest ∨
      (sampleDest ++ [Separator]) <+: "/tmp/latex-1/figs/plot.png".toList :=
  unzipSecure_writes_within_dest (.ok sampleArchive) sampleDest sampleLimit
    "/tmp/latex-1/figs/plot.png".toList (by decide)

/-- C2, as stated, fails: an entry with an absolute name, and an entry whose name has a
`..` segment that cleaning resolves, are extracted beneath the destination and the call
returns nil; for the regular entry `.`, whose target is the destination itself, the
call `os.MkdirAll(filepath.Dir(targetPath))` is made on the parent of the destination,
outside it, before the escaping entry that follows is rejected; and when `zf.Open()`
fails for an entry before the escaping one, that error is returned and not a path
rejection. -/
theorem unzipSecure_extracts_absolute_name :
    (HasPrefix "/etc/passwd".toList [Separator] = true ∧
      withinBudget sampleLimit 0 [regularEntry "/etc/passwd".toList 1024] = true ∧
      unzipSecure (.ok [regularEntry "/etc/passwd".toList 1024]) sampleDest sampleLimit =
        ⟨[Effect.mkdirParent "/tmp/latex-1/etc".toList,
            Effect.openFile "/tmp/latex-1/etc/passwd".toList 420,
            Effect.copy "/tmp/latex-1/etc/passwd".toList], .ok⟩) ∧
    (Contains "figs/../document.tex".toList ['.', '.'] = true ∧
      withinBudget sampleLimit 0 [regularEntry "figs/../document.tex".toList 1024] = true ∧
      unzipSecure (.ok [regularEntry "figs/../document.tex".toList 1024]) sampleDest
          sampleLimit =
        ⟨[Effect.mkdirParent "/tmp/latex-1".toList,
            Effect.openFile "/tmp/latex-1/document.tex".toList 420,
            Effect.copy "/tmp/latex-1/document.tex".toList], .ok⟩) ∧
    (Contains "../x".toList ['.', '.'] = true ∧
      withinBudget sampleLimit 0 dotArchive = true ∧
      unzipSecure (.ok dotArchive) "/srv/new/ws".toList sampleLimit =
        ⟨[Effect.mkdirParent "/srv/new".toList, Effect.openFile "/srv/new/ws".toList 420,
            Effect.copy "/srv/new/ws".toList], .error (.suspiciousPath "../x".toList)⟩ ∧
      withinDest "/srv/new/ws".toList "/srv/new".toList = false) ∧
    (Contains "../x".toList ['.', '.'] = true ∧
      withinBudget sampleLimit 0 unreadableThenEscapingArchive = true ∧
      unzipSecure (.ok unreadableThenEscapingArchive) sampleDest sampleLimit =
        ⟨[Effect.mkdirParent "/tmp/latex-1".toList],
          .error (.os "zip: unsupported compression algorithm".toList)⟩) := by
  decide

/-- C2, amended: when the archive stays within the size budget and has an entry whose
cleaned name starts with `..` or contains `:`, let `k` be the first such entry.
`unzipSecure` has exactly the effects it has on the entries before `k`, and it does not
return nil: it fails with `suspicious path` for entry `k` when the entries before `k` are
extracted without failure, and otherwise ends as their extraction ends, which is with
`zip slip detected` for one of them or with the failure of a system call.  Every path it creates or writes for an entry is the destination or lies beneath
it, and every parent directory it has `os.MkdirAll` ensure is the destination, lies
beneath it, or is `filepath.Dir` of the destination. -/
theorem unzipSecure_rejects_escaping_name (dest : GoString) (sizeLimit : Int)
    (files : List ZipFile) (hbudget : withinBudget sizeLimit 0 files = true)
    (hbad : ∃ zf ∈ files, nameRejected zf.Name = true) :
    (∃ k zf, files[k]? = some zf ∧ nameRejected zf.Name = true ∧
      (∀ z ∈ files.take k, nameRejected z.Name = false) ∧
      (unzipSecure (.ok files) dest sizeLimit).trace =
        (unzipSecure (.ok (files.take k)) dest sizeLimit).trace ∧
      ((unzipSecure (.ok (files.take k)) dest sizeLimit).outcome = .ok →
        (unzipSecure (.ok files) dest sizeLimit).outcome =
          .error (.suspiciousPath zf.Name)) ∧
      ((unzipSecure (.ok (files.take k)) dest sizeLimit).outcome ≠ .ok →
        (unzipSecure (.ok files) dest sizeLimit).outcome =
          (unzipSecure (.ok (files.take k)) dest sizeLimit).outcome ∧
        ((∃ z ∈ files.take k,
            (unzipSecure (.ok files) dest sizeLimit).outcome = .error (.zipSlip z.Name)) ∨
          (∃ e, (unzipSecure (.ok files) dest sizeLimit).outcome = .error (.os e)) ∨
          ∃ e, (unzipSecure (.ok files) dest sizeLimit).outcome = .panic e))) ∧
    (unzipSecure (.ok files) dest sizeLimit).outcome ≠ .ok ∧
    (∀ p ∈ writtenPaths (unzipSecure (.ok files) dest sizeLimit).trace,
      p = dest ∨ (dest ++ [Separator]) <+: p) ∧
    ∀ q ∈ parentPaths (unzipSecure (.ok files) dest sizeLimit).trace,
      (q = dest ∨ (dest ++ [Separator]) <+: q) ∨ q = Dir dest := by
  obtain ⟨k, zf, hk, hrej, hfirst, htrace, hok, hnok⟩ :=
    unzipLoop_first_rejected dest sizeLimit files 0 hbudget hbad
  refine ⟨⟨k, zf, hk, hrej, hfirst, htrace, hok, hnok⟩, ?_, ?_, ?_⟩
  · -- the call does not return nil
    intro hnil
    have hnil2 : (unzipLoop dest sizeLimit 0 files).outcome = .ok := hnil
    by_cases hpre : (unzipLoop dest sizeLimit 0 (files.take k)).outcome = .ok
    · rw [hok hpre] at hnil2
      cases hnil2
    · exact hpre ((hnok hpre).1 ▸ hnil2)
  · intro p hp
    rw [← withinDest_iff]
    exact unzipLoop_written_within dest sizeLimit 0 files p hp
  · intro q hq
    rcases unzipLoop_parents_within dest sizeLimit 0 files q hq with h | h
    · exact Or.inl ((withinDest_iff dest q).mp h)
    · exact Or.inr h

/-- An archive whose first entry escapes is refused with the `suspicious path` of that
entry, whatever the calls for the later entries would have answered. -/
theorem unzipSecure_rejects_escaping_name_witness :
    (unzipSecure (.ok escapingArchive) sampleDest sampleLimit).outcome =
      .error (.suspiciousPath "../x".toList) ∧
    (∀ p ∈ writtenPaths (unzipSecure (.ok escapingArchive) sampleDest sampleLimit).trace,
      p = sampleDest ∨ (sampleDest ++ [Separator]) <+: p) ∧
    ∀ q ∈ parentPaths (unzipSecure (.ok escapingArchive) sampleDest sampleLimit).trace,
      (q = sampleDest ∨ (sampleDest ++ [Separator]) <+: q) ∨ q = Dir sampleDest := by
  obtain ⟨⟨k, zf, hk, -, hfirst, -, hok, -⟩, -, hwritten, hparents⟩ :=
    unzipSecure_rejects_escaping_name sampleDest sampleLimit escapingArchive (by decide)
      ⟨regularEntry "../x".toList 0, by decide, by decide⟩
  refine ⟨?_, hwritten, hparents⟩
  cases k with
  | zero =>
    have hzf : zf = regularEntry "../x".toList 0 := by
      simp [escapingArchive] at hk
      exact hk.symm
    rw [hzf] at hok
    exact hok (by decide)
  | succ n =>
    have hhead := hfirst (regularEntry "../x".toList 0) (by simp [escapingArchive])
    exact absurd hhead (by decide)

/-- C3, as stated, fails: the declared sizes sum to more than five times the limit, yet
the error is the `suspicious path` of an earlier entry; and for an empty archive with a
negative limit there is no error at all. -/
theorem bomb_guard_not_reached :
    (sampleLimit * 5 < declaredSum rejectedThenHugeArchive ∧
      (unzipSecure (.ok rejectedThenHugeArchive) sampleDest sampleLimit).outcome =
        .error (.suspiciousPath "../x".toList)) ∧
    ((-1 : Int) * 5 < declaredSum [] ∧
      (unzipSecure (.ok []) sampleDest (-1)).outcome = .ok) := by
  decide

/-- C3, amended: for a non-empty archive whose declared sizes sum to more than
`sizeLimit * 5`, where neither the sum nor `sizeLimit * 5` leaves the range of the signed
64-bit counter, let `k` be the first entry at which the running sum exceeds the bound.
`unzipSecure` has exactly the effects it has on the entries before `k`, so neither entry
`k` nor a later one is written; it does not return nil; it fails with
`uncompressed size too large` when the entries before `k` are extracted without failure,
and otherwise ends as the extraction of those entries ends. -/
theorem unzipSecure_bomb_guard (dest : GoString) (sizeLimit : Int) (files : List ZipFile)
    (hne : files ≠ []) (hfit : (declaredSum files : Int) < 2 ^ 63)
    (hl1 : -2 ^ 63 ≤ sizeLimit * 5) (hl2 : sizeLimit * 5 < 2 ^ 63)
    (hover : sizeLimit * 5 < declaredSum files) :
    ∃ k, k < files.length ∧ sizeLimit * 5 < declaredSum (files.take (k + 1)) ∧
      (∀ j, j < k → (declaredSum (files.take (j + 1)) : Int) ≤ sizeLimit * 5) ∧
      (unzipSecure (.ok files) dest sizeLimit).trace =
        (unzipSecure (.ok (files.take k)) dest sizeLimit).trace ∧
      (unzipSecure (.ok files) dest sizeLimit).outcome ≠ .ok ∧
      ((unzipSecure (.ok (files.take k)) dest sizeLimit).outcome = .ok →
        (unzipSecure (.ok files) dest sizeLimit).outcome = .error .tooLarge) ∧
      ((unzipSecure (.ok (files.take k)) dest sizeLimit).outcome ≠ .ok →
        (unzipSecure (.ok files) dest sizeLimit).outcome =
          (unzipSecure (.ok (files.take k)) dest sizeLimit).outcome) := by
  obtain ⟨k, hk, hex, hfirst, htrace, hok, hnok⟩ :=
    unzipLoop_over dest sizeLimit hl1 hl2 files 0 (le_refl 0) (by simpa using hfit)
      (by simpa using hover) hne
  refine ⟨k, hk, by simpa using hex, ?_, htrace, ?_, hok, hnok⟩
  · intro j hj
    simpa using hfirst j hj
  · by_cases hpre : (unzipLoop dest sizeLimit 0 (files.take k)).outcome = .ok
    · have h := hok hpre
      intro hcontra
      have hcontra2 : (unzipLoop dest sizeLimit 0 files).outcome = .ok := hcontra
      rw [h] at hcontra2
      cases hcontra2
    · have h := hnok hpre
      intro hcontra
      have hcontra2 : (unzipLoop dest sizeLimit 0 files).outcome = .ok := hcontra
      exact hpre (h ▸ hcontra2)

/-- The archive with a terabyte entry is refused at that entry: only `document.tex`,
which comes before it, is written. -/
theorem unzipSecure_bomb_guard_witness :
    unzipSecure (.ok hugeArchive) sampleDest sampleLimit =
      ⟨[Effect.mkdirParent "/tmp/latex-1".toList,
          Effect.openFile "/tmp/latex-1/document.tex".toList 420,
          Effect.copy "/tmp/latex-1/document.tex".toList], .error .tooLarge⟩ ∧
    ∃ k, k < hugeArchive.length ∧
      sampleLimit * 5 < declaredSum (hugeArchive.take (k + 1)) ∧
      (∀ j, j < k → (declaredSum (hugeArchive.take (j + 1)) : Int) ≤ sampleLimit * 5) ∧
      (unzipSecure (.ok hugeArchive) sampleDest sampleLimit).trace =
        (unzipSecure (.ok (hugeArchive.take k)) sampleDest sampleLimit).trace ∧
      (unzipSecure (.ok hugeArchive) sampleDest sampleLimit).outcome ≠ .ok ∧
      ((unzipSecure (.ok (hugeArchive.take k)) sampleDest sampleLimit).outcome = .ok →
        (unzipSecure (.ok hugeArchive) sampleDest sampleLimit).outcome = .error .tooLarge) ∧
      ((unzipSecure (.ok (hugeArchive.take k)) sampleDest sampleLimit).outcome ≠ .ok →
        (unzipSecure (.ok hugeArchive) sampleDest sampleLimit).outcome =
          (unzipSecure (.ok (hugeArchive.take k)) sampleDest sampleLimit).outcome) :=
  ⟨by decide,
    unzipSecure_bomb_guard sampleDest sampleLimit hugeArchive (by decide) (by decide)
      (by decide) (by decide) (by decide)⟩

/-- C4: in a request that reached the compiler, if the first run of `runPdflatex` returns
an error there is no second run and the response is `LaTeX compilation failed`; if the
first run succeeds there is exactly one more run, with the same arguments, and if that
one returns an error the response is `LaTeX compilation failed (2nd pass)`. -/
theorem compileHandler_two_pass (cfg : Config) (env : Env) (tmpDir : GoString)
    (h : CompilerReached cfg env tmpDir) :
    ((env.pdflatex 0 tmpDir (Join tmpDir cfg.texFilename)).2 ≠ none →
      pdflatexCalls (compileHandler cfg env).trace = [(tmpDir, Join tmpDir cfg.texFilename)] ∧
      ∃ details, (compileHandler cfg env).outcome =
        .responded (.json StatusInternalServerError
          ⟨"LaTeX compilation failed".toList, details⟩)) ∧
    ((env.pdflatex 0 tmpDir (Join tmpDir cfg.texFilename)).2 = none →
      pdflatexCalls (compileHandler cfg env).trace =
        [(tmpDir, Join tmpDir cfg.texFilename), (tmpDir, Join tmpDir cfg.texFilename)] ∧
      ((env.pdflatex 1 tmpDir (Join tmpDir cfg.texFilename)).2 ≠ none →
        ∃ details, (compileHandler cfg env).outcome =
          .responded (.json StatusInternalServerError
            ⟨"LaTeX compilation failed (2nd pass)".toList, details⟩))) := by
  obtain ⟨before, hbefore, htrace, houtcome⟩ := compileHandler_of_reached cfg env tmpDir h
  obtain ⟨hfirst, hsecond⟩ :=
    compileStage_calls env tmpDir (Join tmpDir cfg.texFilename) (pdfName cfg.texFilename)
      (Join tmpDir (pdfName cfg.texFilename))
  have hcalls : pdflatexCalls (compileHandler cfg env).trace =
      pdflatexCalls (compileStage env tmpDir (Join tmpDir cfg.texFilename)
        (pdfName cfg.texFilename) (Join tmpDir (pdfName cfg.texFilename))).trace := by
    rw [htrace, pdflatexCalls_append, pdflatexCalls_append, hbefore]
    simp [pdflatexCalls]
  rw [hcalls, houtcome]
  constructor
  · intro hfail
    obtain ⟨hc, details, -, ho⟩ := hfirst hfail
    exact ⟨hc, details, ho⟩
  · intro hpass
    obtain ⟨hc, hsnd⟩ := hsecond hpass
    refine ⟨hc, ?_⟩
    intro hfail
    obtain ⟨details, -, ho⟩ := hsnd hfail
    exact ⟨details, ho⟩

/-- With a compiler that fails in its second run, the compiler is run twice on the
entry point and the second pass is blamed. -/
theorem compileHandler_two_pass_witness :
    CompilerReached sampleConfig (failingCompilerEnv 1) sampleDest ∧
    pdflatexCalls (compileHandler sampleConfig (failingCompilerEnv 1)).trace =
      [(sampleDest, "/tmp/latex-1/document.tex".toList),
        (sampleDest, "/tmp/latex-1/document.tex".toList)] ∧
    ∃ details, (compileHandler sampleConfig (failingCompilerEnv 1)).outcome =
      .responded (.json StatusInternalServerError
        ⟨"LaTeX compilation failed (2nd pass)".toList, details⟩) :=
  have hreached : CompilerReached sampleConfig (failingCompilerEnv 1) sampleDest :=
    ⟨⟨⟨rfl, rfl, "report.zip".toList, rfl, by decide, by decide, rfl⟩, rfl, rfl, by decide⟩,
      rfl⟩
  have hpass := (compileHandler_two_pass sampleConfig (failingCompilerEnv 1) sampleDest
    hreached).2 rfl
  ⟨hreached, hpass.1, hpass.2 (by decide)⟩

/-- C5: when the archive was extracted without error and `os.Stat` finds nothing at the
workspace joined with the entry-point name, the response is status 400 with
`No <name> found in the ZIP file`, and the compiler is never run. -/
theorem compileHandler_missing_entry_point (cfg : Config) (env : Env) (tmpDir : GoString)
    (h : Extracted cfg env tmpDir) (hstat : env.statTex ≠ none) :
    (compileHandler cfg env).outcome =
      .responded (.json 400
        ⟨"No ".toList ++ cfg.texFilename ++ " found in the ZIP file".toList, []⟩) ∧
    pdflatexCalls (compileHandler cfg env).trace = [] := by
  obtain ⟨hw, hc, hu, hz⟩ := h
  obtain ⟨hdr, -, hrun⟩ := compileHandler_of_workspace cfg env tmpDir hw
  rw [hrun, workspaceStage_of_extracted cfg env tmpDir _ hc hu hz]
  cases hs : env.statTex with
  | none => exact absurd hs hstat
  | some err =>
    refine ⟨rfl, ?_⟩
    simp [pdflatexCalls, pdflatexCalls_append, pdflatexCalls_unzipSecure]

/-- An archive holding only `other.tex` is answered with the missing entry point. -/
theorem compileHandler_missing_entry_point_witness :
    Extracted sampleConfig missingEntryPointEnv sampleDest ∧
    (compileHandler sampleConfig missingEntryPointEnv).outcome =
      .responded (.json 400 ⟨"No document.tex found in the ZIP file".toList, []⟩) ∧
    pdflatexCalls (compileHandler sampleConfig missingEntryPointEnv).trace = [] :=
  have hextracted : Extracted sampleConfig missingEntryPointEnv sampleDest :=
    ⟨⟨rfl, rfl, "report.zip".toList, rfl, by decide, by decide, rfl⟩, rfl, rfl, by decide⟩
  ⟨hextracted,
    compileHandler_missing_entry_point sampleConfig missingEntryPointEnv sampleDest
      hextracted (by decide)⟩

/-- C6 fails on the code: when `os.OpenFile` fails for a regular entry, or `io.Copy`
does, `unzipSecure` does not return the failure: it panics, and the panic leaves
`compileHandler` without a response. -/
theorem unzipSecure_panics_on_write_failure :
    unzipSecure (.ok clashingArchive) sampleDest sampleLimit =
      ⟨[Effect.mkdirAll "/tmp/latex-1/a".toList, Effect.mkdirParent "/tmp/latex-1".toList,
          Effect.openFile "/tmp/latex-1/a".toList 420],
        .panic "open /tmp/latex-1/a: is a directory".toList⟩ ∧
    (unzipSecure (.ok [truncatedEntry "document.tex".toList 2048 "unexpected EOF".toList])
        sampleDest sampleLimit).outcome = .panic "unexpected EOF".toList ∧
    (compileHandler sampleConfig clashingEnv).outcome =
      .panicked "open /tmp/latex-1/a: is a directory".toList := by
  decide

/-- C7: for a cap `max` that is not negative, `tail(s, max)` is a suffix of `s` of length
`min(len(s), max)`, and is `s` when `len(s) ≤ max`; and the details of a response
`LaTeX compilation failed` or `LaTeX compilation failed (2nd pass)` are the tail of the
output of a compiler run, at most 8192 bytes long. -/
theorem tail_suffix_and_details_bounded (s : GoString) (max : Int) (hmax : 0 ≤ max) :
    (∃ t, tail s max = some t ∧ t <:+ s ∧ (t.length : Int) = min (s.length : Int) max ∧
      ((s.length : Int) ≤ max → t = s)) ∧
    ∀ (cfg : Config) (env : Env) (code : Nat) (v : apiError),
      (compileHandler cfg env).outcome = .responded (.json code v) →
      (v.Error = "LaTeX compilation failed".toList ∨
        v.Error = "LaTeX compilation failed (2nd pass)".toList) →
      v.Details.length ≤ 8192 ∧
        ∃ n workDir texPath, n < 2 ∧ v.Details <:+ (env.pdflatex n workDir texPath).1 ∧
          tail (env.pdflatex n workDir texPath).1 (8 * 2 ^ 10) = some v.Details := by
  constructor
  · obtain ⟨t, ht, hsuffix, hlen⟩ := tail_spec s max hmax
    refine ⟨t, ht, hsuffix, hlen, ?_⟩
    intro hshort
    have hfull : tail s max = some s := by simp [tail, hshort]
    rw [hfull] at ht
    exact (Option.some.inj ht).symm
  · intro cfg env code v hresp herr
    have hhead : v.Error.head? = some 'L' := by
      rcases herr with h | h <;> rw [h] <;> decide
    rcases compileHandler_cases cfg env with ⟨tmpDir, hreached⟩ | ⟨-, hjson, -⟩
    · obtain ⟨-, -, -, houtcome⟩ := compileHandler_of_reached cfg env tmpDir hreached
      rw [houtcome] at hresp
      rcases compileStage_outcome env tmpDir (Join tmpDir cfg.texFilename)
          (pdfName cfg.texFilename) (Join tmpDir (pdfName cfg.texFilename)) with
        ⟨details, htail, ho⟩ | ⟨details, htail, ho⟩ | ho | ho | ho
      · rw [ho] at hresp
        simp only [HandlerOutcome.responded.injEq, Response.json.injEq] at hresp
        obtain ⟨-, rfl⟩ := hresp
        obtain ⟨hsuffix, hlen⟩ := tail_length_le _ _ htail
        exact ⟨hlen, 0, tmpDir, Join tmpDir cfg.texFilename, by decide, hsuffix, htail⟩
      · rw [ho] at hresp
        simp only [HandlerOutcome.responded.injEq, Response.json.injEq] at hresp
        obtain ⟨-, rfl⟩ := hresp
        obtain ⟨hsuffix, hlen⟩ := tail_length_le _ _ htail
        exact ⟨hlen, 1, tmpDir, Join tmpDir cfg.texFilename, by decide, hsuffix, htail⟩
      · rw [ho] at hresp
        simp only [HandlerOutcome.responded.injEq, Response.json.injEq] at hresp
        obtain ⟨-, rfl⟩ := hresp
        exact absurd hhead (by decide)
      · rw [ho] at hresp
        simp at hresp
      · rw [ho] at hresp
        simp at hresp
    · exact absurd hhead (hjson code v hresp)

/-- The last four bytes of a six-byte string, and the bound on the details of every
compilation failure. -/
theorem tail_suffix_and_details_bounded_witness :
    (∃ t, tail "abcdef".toList 4 = some t ∧ t <:+ "abcdef".toList ∧
      (t.length : Int) = min ("abcdef".toList.length : Int) 4 ∧
      (("abcdef".toList.length : Int) ≤ 4 → t = "abcdef".toList)) ∧
    ∀ (cfg : Config) (env : Env) (code : Nat) (v : apiError),
      (compileHandler cfg env).outcome = .responded (.json code v) →
      (v.Error = "LaTeX compilation failed".toList ∨
        v.Error = "LaTeX compilation failed (2nd pass)".toList) →
      v.Details.length ≤ 8192 ∧
        ∃ n workDir texPath, n < 2 ∧ v.Details <:+ (env.pdflatex n workDir texPath).1 ∧
          tail (env.pdflatex n workDir texPath).1 (8 * 2 ^ 10) = some v.Details :=
  tail_suffix_and_details_bounded "abcdef".toList 4 (by decide)

/-- C8: the artifact name is the entry-point name with its extension replaced by `.pdf`:
it is a stem followed by `.pdf`, and the same stem followed by the extension is the
entry-point name.  The extension is empty, when no dot follows the last separator, or
starts at a dot and has no further dot and no separator.  A PDF response carries this
name. -/
theorem pdfName_replaces_extension (cfg : Config) :
    (∃ stem, pdfName cfg.texFilename = stem ++ ".pdf".toList ∧
      stem ++ Ext cfg.texFilename = cfg.texFilename) ∧
    (Ext cfg.texFilename = [] ∨
      ∃ e, Ext cfg.texFilename = '.' :: e ∧ '.' ∉ e ∧ Separator ∉ e) ∧
    (Ext cfg.texFilename = [] →
      ∀ t, t <:+ cfg.texFilename → Separator ∉ t → '.' ∉ t) ∧
    ∀ (env : Env) (name path : GoString),
      (compileHandler cfg env).outcome = .responded (.pdf name path) →
      name = pdfName cfg.texFilename := by
  refine ⟨pdfName_spec cfg.texFilename, extScan_shape _ [] (by simp), ?_, ?_⟩
  · intro hext t ht hsep
    have hscan := extScan_nil cfg.texFilename.reverse [] hext t.reverse
      (List.reverse_prefix.mpr ht) (by simpa using hsep)
    simpa using hscan
  · intro env name path hresp
    rcases compileHandler_cases cfg env with ⟨tmpDir, hreached⟩ | ⟨-, -, hpdf⟩
    · obtain ⟨-, -, -, houtcome⟩ := compileHandler_of_reached cfg env tmpDir hreached
      rw [houtcome] at hresp
      rcases compileStage_outcome env tmpDir (Join tmpDir cfg.texFilename)
          (pdfName cfg.texFilename) (Join tmpDir (pdfName cfg.texFilename)) with
        ⟨details, -, ho⟩ | ⟨details, -, ho⟩ | ho | ho | ho
      all_goals rw [ho] at hresp
      all_goals simp at hresp
      exact hresp.1.symm
    · exact absurd hresp (hpdf name path)

/-- C9: when the handler created the workspace `tmpDir`, then however it ends (with a
response or with a panic) its trace is the creation of `tmpDir`, what the rest of the
handler does, `os.RemoveAll(tmpDir)` and the closing of the upload; so, whatever the
other effects do to the filesystem, neither `tmpDir` nor a path beneath it exists when
the handler has finished. -/
theorem compileHandler_removes_workspace (cfg : Config) (env : Env) (tmpDir : GoString)
    (h : WorkspaceCreated cfg env tmpDir) :
    (∃ body, (compileHandler cfg env).trace =
      Effect.mkdirTemp tmpDir :: (body ++ [Effect.removeAll tmpDir, Effect.closeUpload])) ∧
    ∀ sem, RemovalSound sem → ∀ fs,
      ∀ p ∈ pathsAfter sem fs (compileHandler cfg env).trace, withinDest tmpDir p = false := by
  obtain ⟨hdr, -, hrun⟩ := compileHandler_of_workspace cfg env tmpDir h
  refine ⟨⟨(workspaceStage cfg env (maxBytesOf cfg) (Base hdr) tmpDir).trace, by rw [hrun]⟩, ?_⟩
  intro sem hsem fs p hp
  obtain ⟨hremove, hclose⟩ := hsem
  rw [hrun] at hp
  simp only [pathsAfter, List.foldl_cons, List.foldl_append, List.foldl_nil, hclose] at hp
  exact hremove tmpDir _ p hp

/-- A request whose extraction panics still removes its workspace: of the paths its own
calls created, none is left. -/
theorem compileHandler_removes_workspace_witness :
    (compileHandler sampleConfig clashingEnv).outcome =
      .panicked "open /tmp/latex-1/a: is a directory".toList ∧
    (compileHandler sampleConfig clashingEnv).trace =
      [Effect.mkdirTemp sampleDest, Effect.create "/tmp/latex-1/report.zip".toList,
        Effect.mkdirAll "/tmp/latex-1/a".toList, Effect.mkdirParent sampleDest,
        Effect.openFile "/tmp/latex-1/a".toList 420, Effect.removeAll sampleDest,
        Effect.closeUpload] ∧
    ∀ p ∈ pathsAfter ownPaths [] (compileHandler sampleConfig clashingEnv).trace,
      withinDest sampleDest p = false :=
  ⟨by decide, by decide,
    (compileHandler_removes_workspace sampleConfig clashingEnv sampleDest
      ⟨rfl, rfl, "report.zip".toList, rfl, by decide, by decide, rfl⟩).2 ownPaths
      ownPaths_sound []⟩

/-- C10, as stated, fails at the root: `/` is clean and absolute, the name `a.tex` passes
the name check, and the joined path `/a.tex` fails the containment test, so that
`unzipSecure` reports `zip slip detected`. -/
theorem zip_slip_reached_at_root :
    Clean [Separator] = [Separator] ∧ HasPrefix [Separator] [Separator] = true ∧
    HasPrefix (Clean "a.tex".toList) ['.', '.'] = false ∧
    Contains (Clean "a.tex".toList) [':'] = false ∧
    Join [Separator] (Clean "a.tex".toList) = "/a.tex".toList ∧
    withinDest [Separator] "/a.tex".toList = false ∧
    (unzipSecure (.ok [regularEntry "a.tex".toList 10]) [Separator] sampleLimit).outcome =
      .error (.zipSlip "a.tex".toList) := by
  decide

/-- C10, amended: for a clean absolute destination other than the root `/`, a name whose
cleaned form neither starts with `..` nor contains `:` is joined to the destination itself
or to a path that starts with the destination and a separator; so `unzipSecure` never
reports `zip slip detected`. -/
theorem zip_slip_unreachable (dest : GoString) (hclean : Clean dest = dest)
    (habs : HasPrefix dest [Separator] = true) (hroot : dest ≠ [Separator]) :
    (∀ name, HasPrefix (Clean name) ['.', '.'] = false → Contains (Clean name) [':'] = false →
      Join dest (Clean name) = dest ∨ (dest ++ [Separator]) <+: Join dest (Clean name)) ∧
    ∀ (archive : Except OsError (List ZipFile)) (sizeLimit : Int) (name : GoString),
      (unzipSecure archive dest sizeLimit).outcome ≠ .error (.zipSlip name) := by
  constructor
  · intro name hname _
    exact Join_within dest name hclean habs hroot hname
  · intro archive sizeLimit name
    cases archive with
    | error err => simp [unzipSecure]
    | ok files => exact unzipLoop_no_zipSlip dest hclean habs hroot sizeLimit files 0 name

/-- The workspace `/tmp/latex-1` is such a destination. -/
theorem zip_slip_unreachable_witness :
    (∀ name, HasPrefix (Clean name) ['.', '.'] = false → Contains (Clean name) [':'] = false →
      Join sampleDest (Clean name) = sampleDest ∨
        (sampleDest ++ [Separator]) <+: Join sampleDest (Clean name)) ∧
    ∀ (archive : Except OsError (List ZipFile)) (sizeLimit : Int) (name : GoString),
      (unzipSecure archive sampleDest sizeLimit).outcome ≠ .error (.zipSlip name) :=
  zip_slip_unreachable sampleDest (by decide) (by decide) (by decide)

end LatexReportServer
